import Mathlib

/-!
Verification development for the Monkey interpreter repository
(felix-d/Rust-Monkey-Intepreter).

The abstract syntax tree is embedded from `src/ast.rs`, and the
environment from `src/environment.rs`.  In the Rust code an
`Environment` is `Rc<RefCell<InnerEnvironment>>`: a shared, mutable
cell.  We model the set of live cells as a heap (a list of
`InnerEnvironment` records, one per allocation) and an `Environment`
value as the index of its cell; `Clone` on the Rust `Environment`
clones the `Rc`, i.e. yields the same index.  `new` and
`new_enclosed_environment` allocate at the end of the heap, so the
`outer` index of a well-formed cell is always strictly smaller than
the cell's own index; `WfHeap` records this allocation invariant.

The evaluator, the object model and the parser of the repository are
not part of `src/` (only `main.rs` declares the modules), so they are
modelled from the specification, as marked on each such definition.
-/

namespace Monkey

/- The AST of `src/ast.rs`: `Statement`, `Expression`, `BlockStatement`. -/
mutual

inductive Expression : Type where
  | integerLiteral : Int → Expression
  | identifier : String → Expression
  | prefixExpr (operator : String) (right : Expression) : Expression
  | infixExpr (left : Expression) (right : Expression) (operator : String) : Expression
  | boolean : Bool → Expression
  | ifExpression (condition : Expression) (consequence : BlockStatement)
      (alternative : Option BlockStatement) : Expression
  | functionLiteral (parameters : List String) (body : BlockStatement) : Expression
  | callExpression (function : Expression) (arguments : List Expression) : Expression

inductive Statement : Type where
  | letS (name : String) (value : Expression) : Statement
  | returnS (value : Expression) : Statement
  | exprS (value : Expression) : Statement

inductive BlockStatement : Type where
  | block (statements : List Statement) : BlockStatement

end

/-- `Program` of `src/ast.rs`: an ordered sequence of statements. -/
structure Program : Type where
  statements : List Statement

/-- Modelled from the spec: the runtime `Object` model (`object.rs` is not in
`src/`, only declared by `main.rs`).  Spec §3: `Integer(i64)`, `Boolean(bool)`,
`Null`, `Function{parameters, body, captured_environment}`,
`ReturnSignal(Object)`, `Error(message)`.  The captured environment is the
heap index of the shared environment cell. -/
inductive Object : Type where
  | integer : Int → Object
  | boolean : Bool → Object
  | null : Object
  | function (parameters : List String) (body : BlockStatement) (env : Nat) : Object
  | returnSignal : Object → Object
  | error : String → Object

/-- `InnerEnvironment` of `src/environment.rs`: a store from identifiers to
objects (`HashMap<String, Object>`, keys unique, modelled as an association
list) and an optional outer environment (a heap index in our model). -/
structure InnerEnvironment : Type where
  store : List (String × Object)
  outer : Option Nat

/-- The heap of live `Rc<RefCell<InnerEnvironment>>` cells; an `Environment`
value is an index into it. -/
abbrev Heap : Type := List InnerEnvironment

/-- Lookup in a store, the model of `HashMap::get` on keys kept unique. -/
def storeLookup (key : String) : List (String × Object) → Option Object
  | [] => none
  | (k, v) :: rest => if k = key then some v else storeLookup key rest

/-- Insertion into a store, the model of `HashMap::insert`: replaces the
binding of an existing key, otherwise adds one. -/
def storeInsert (key : String) (val : Object) :
    List (String × Object) → List (String × Object)
  | [] => [(key, val)]
  | (k, v) :: rest =>
    if k = key then (key, val) :: rest else (k, v) :: storeInsert key val rest

/-- Reading a cell of the heap.  The Rust code always reads through a live
`Rc`, so the index is always in bounds there; out-of-bounds reads of the
model return an inert empty cell. -/
def cell (h : Heap) (i : Nat) : InnerEnvironment :=
  (h.get? i).getD ⟨[], none⟩

namespace Environment

/-- `Environment::new`: allocate a cell with an empty store and no outer
link; the returned index is the new `Environment` value. -/
def new (h : Heap) : Heap × Nat :=
  (h ++ [⟨[], none⟩], h.length)

/-- `Environment::new_enclosed_environment`: allocate a cell with an empty
store whose outer link is the given (already live) environment. -/
def new_enclosed_environment (h : Heap) (outer : Nat) : Heap × Nat :=
  (h ++ [⟨[], some outer⟩], h.length)

/-- `Clone` on the Rust `Environment` clones the `Rc`: the clone aliases
the same cell, so in the model it is the same heap index. -/
def clone (env : Nat) : Nat := env

/-- The recursion of `Environment::get`, with explicit fuel: look in the
local store, otherwise delegate to the outer environment. -/
def getAux (h : Heap) : Nat → Nat → String → Option Object
  | 0, _, _ => none
  | fuel + 1, i, key =>
    match storeLookup key (cell h i).store with
    | some v => some v
    | none =>
      match (cell h i).outer with
      | some o => getAux h fuel o key
      | none => none

/-- `Environment::get`.  Under the allocation invariant `WfHeap` the outer
chain from index `i` only descends, so fuel `i + 1` reaches its end. -/
def get (h : Heap) (i : Nat) (key : String) : Option Object :=
  getAux h (i + 1) i key

/-- `Environment::set`: insert into the local store of the cell `i` alone. -/
def set (h : Heap) (i : Nat) (key : String) (val : Object) : Heap :=
  match h.get? i with
  | some env => h.set i { env with store := storeInsert key val env.store }
  | none => h

end Environment

/-- The allocation invariant of the heap: every outer link points to an
earlier allocation.  It holds for every heap built by `Environment.new`,
`Environment.new_enclosed_environment` and `Environment.set`. -/
def WfHeap (h : Heap) : Prop :=
  ∀ i env, h.get? i = some env → ∀ o, env.outer = some o → o < i

/-- The outer chain of indices starting at `i`, with explicit fuel. -/
def chainAux (h : Heap) : Nat → Nat → List Nat
  | 0, _ => []
  | fuel + 1, i =>
    i ::
      match (cell h i).outer with
      | some o => chainAux h fuel o
      | none => []

/-- The outer chain of environment `i`: itself, then its outer's chain. -/
def chain (h : Heap) (i : Nat) : List Nat :=
  chainAux h (i + 1) i

/-- First hit of `key` along a list of environment indices. -/
def chainLookup (h : Heap) (key : String) : List Nat → Option Object
  | [] => none
  | i :: rest =>
    match storeLookup key (cell h i).store with
    | some v => some v
    | none => chainLookup h key rest

/-- Outside the heap a cell reads as the default `⟨[], none⟩`. -/
theorem cell_of_none {h : Heap} {i : Nat} (hg : h.get? i = none) :
    cell h i = ⟨[], none⟩ := by
  unfold cell; rw [hg]; rfl

/-- Inside the heap a cell reads as the stored record. -/
theorem cell_of_some {h : Heap} {i : Nat} {env : InnerEnvironment}
    (hg : h.get? i = some env) : cell h i = env := by
  unfold cell; rw [hg]; rfl

/-- On a well-formed heap the result of `getAux` does not depend on the
fuel once the fuel exceeds the starting index: the outer chain strictly
descends. -/
theorem getAux_stable {h : Heap} (wf : WfHeap h) :
    ∀ i f₁ f₂, i < f₁ → i < f₂ → ∀ key,
      Environment.getAux h f₁ i key = Environment.getAux h f₂ i key := by
  intro i
  induction i using Nat.strong_induction_on with
  | _ i ih =>
    intro f₁ f₂ hf₁ hf₂ key
    obtain ⟨g₁, rfl⟩ : ∃ g, f₁ = g + 1 := ⟨f₁ - 1, by omega⟩
    obtain ⟨g₂, rfl⟩ : ∃ g, f₂ = g + 1 := ⟨f₂ - 1, by omega⟩
    rcases hg : h.get? i with _ | env
    · simp [Environment.getAux, cell_of_none hg]
    · simp only [Environment.getAux, cell_of_some hg]
      cases hs : storeLookup key env.store with
      | some v => simp [hs]
      | none =>
        simp only [hs]
        cases ho : env.outer with
        | none => simp
        | some o =>
          simp only
          have hoi : o < i := wf i env hg o ho
          exact ih o hoi g₁ g₂ (by omega) (by omega) key

/-- Unfolding of `get` on a well-formed heap: local store first, then the
outer environment. -/
theorem get_unfold {h : Heap} (wf : WfHeap h) (i : Nat) (key : String) :
    Environment.get h i key =
      match storeLookup key (cell h i).store with
      | some v => some v
      | none =>
        match (cell h i).outer with
        | some o => Environment.get h o key
        | none => none := by
  rcases hg : h.get? i with _ | env
  · simp [Environment.get, Environment.getAux, cell_of_none hg]
  · simp only [Environment.get, Environment.getAux, cell_of_some hg]
    cases hs : storeLookup key env.store with
    | some v => simp [hs]
    | none =>
      simp only [hs]
      cases ho : env.outer with
      | none => simp
      | some o =>
        simp only
        have hoi : o < i := wf i env hg o ho
        exact getAux_stable wf o i (o + 1) (by omega) (by omega) key

/-- On a well-formed heap the chain does not depend on the fuel once the
fuel exceeds the starting index. -/
theorem chainAux_stable {h : Heap} (wf : WfHeap h) :
    ∀ i f₁ f₂, i < f₁ → i < f₂ → chainAux h f₁ i = chainAux h f₂ i := by
  intro i
  induction i using Nat.strong_induction_on with
  | _ i ih =>
    intro f₁ f₂ hf₁ hf₂
    obtain ⟨g₁, rfl⟩ : ∃ g, f₁ = g + 1 := ⟨f₁ - 1, by omega⟩
    obtain ⟨g₂, rfl⟩ : ∃ g, f₂ = g + 1 := ⟨f₂ - 1, by omega⟩
    rcases hg : h.get? i with _ | env
    · simp [chainAux, cell_of_none hg]
    · simp only [chainAux, cell_of_some hg]
      cases ho : env.outer with
      | none => simp
      | some o =>
        simp only [List.cons.injEq, true_and]
        have hoi : o < i := wf i env hg o ho
        exact ih o hoi g₁ g₂ (by omega) (by omega)

/-- Unfolding of `chain` on a well-formed heap. -/
theorem chain_unfold {h : Heap} (wf : WfHeap h) (i : Nat) :
    chain h i =
      i ::
        match (cell h i).outer with
        | some o => chain h o
        | none => [] := by
  rcases hg : h.get? i with _ | env
  · simp [chain, chainAux, cell_of_none hg]
  · simp only [chain, chainAux, cell_of_some hg]
    cases ho : env.outer with
    | none => simp
    | some o =>
      simp only [List.cons.injEq, true_and]
      have hoi : o < i := wf i env hg o ho
      exact chainAux_stable wf o i (o + 1) (by omega) (by omega)

/-- On a well-formed heap, `get` is the first hit along the outer chain. -/
theorem get_eq_chainLookup {h : Heap} (wf : WfHeap h) :
    ∀ i key, Environment.get h i key = chainLookup h key (chain h i) := by
  intro i
  induction i using Nat.strong_induction_on with
  | _ i ih =>
    intro key
    rw [get_unfold wf, chain_unfold wf]
    rcases hg : h.get? i with _ | env
    · simp [chainLookup, cell_of_none hg]
    · rw [cell_of_some hg]
      cases hs : storeLookup key env.store with
      | some v => simp [chainLookup, cell_of_some hg, hs]
      | none =>
        cases ho : env.outer with
        | none => simp [chainLookup, cell_of_some hg, hs, ho]
        | some o =>
          simp only [chainLookup, cell_of_some hg, hs, ho]
          exact ih o (wf i env hg o ho) key

/-- A chain lookup misses exactly when every store along the chain
misses. -/
theorem chainLookup_eq_none_iff (h : Heap) (key : String) (l : List Nat) :
    chainLookup h key l = none ↔
      ∀ j ∈ l, storeLookup key (cell h j).store = none := by
  induction l with
  | nil => simp [chainLookup]
  | cons j rest ih =>
    cases hs : storeLookup key (cell h j).store with
    | some v => simp [chainLookup, hs]
    | none => simp [chainLookup, hs, ih]

/-- Every member of a chain on a well-formed heap is at most the start. -/
theorem chain_le {h : Heap} (wf : WfHeap h) :
    ∀ i j, j ∈ chain h i → j ≤ i := by
  intro i
  induction i using Nat.strong_induction_on with
  | _ i ih =>
    intro j hj
    rw [chain_unfold wf] at hj
    rcases List.mem_cons.mp hj with rfl | hj
    · exact Nat.le_refl j
    · rcases ho : (cell h i).outer with _ | o
      · rw [ho] at hj; simp at hj
      · rw [ho] at hj
        rcases hg : h.get? i with _ | env
        · rw [cell_of_none hg] at ho; simp at ho
        · have hoi : o < i := wf i env hg o (by rw [cell_of_some hg] at ho; exact ho)
          exact Nat.le_trans (ih o hoi j hj) (Nat.le_of_lt hoi)

/-- The chain on a well-formed heap strictly descends. -/
theorem chain_chain'_gt {h : Heap} (wf : WfHeap h) (i : Nat) :
    (chain h i).Chain' (fun a b => b < a) := by
  induction i using Nat.strong_induction_on with
  | _ i ih =>
    rw [chain_unfold wf]
    rcases hg : h.get? i with _ | env
    · simp [cell_of_none hg]
    · rw [cell_of_some hg]
      cases ho : env.outer with
      | none => simp
      | some o =>
        have hoi : o < i := wf i env hg o ho
        simp only
        refine List.chain'_cons'.mpr ⟨?_, ih o hoi⟩
        intro y hy
        have hmem : y ∈ chain h o := List.mem_of_mem_head? hy
        have := chain_le wf o y hmem
        omega

/-- Looking up the key just inserted hits the new value
(`HashMap::insert` then `HashMap::get`). -/
theorem storeLookup_insert_self (key : String) (val : Object)
    (s : List (String × Object)) :
    storeLookup key (storeInsert key val s) = some val := by
  induction s with
  | nil => simp [storeInsert, storeLookup]
  | cons p rest ih =>
    obtain ⟨k, v⟩ := p
    by_cases hk : k = key
    · simp [storeInsert, hk, storeLookup]
    · simp [storeInsert, hk, storeLookup, ih]

/-- Insertion of one key leaves the lookup of any other key unchanged. -/
theorem storeLookup_insert_ne {key key2 : String} (hne : key2 ≠ key)
    (val : Object) (s : List (String × Object)) :
    storeLookup key2 (storeInsert key val s) = storeLookup key2 s := by
  induction s with
  | nil => simp [storeInsert, storeLookup, hne, Ne.symm hne]
  | cons p rest ih =>
    obtain ⟨k, v⟩ := p
    by_cases hk : k = key
    · subst hk
      simp [storeInsert, storeLookup, hne, Ne.symm hne]
    · by_cases hk2 : k = key2
      · subst hk2
        simp [storeInsert, hk, storeLookup, hne]
      · simp [storeInsert, hk, storeLookup, hk2, ih]

/-- `Environment::set` leaves every other cell of the heap untouched. -/
theorem set_get?_ne (h : Heap) (i : Nat) (key : String) (val : Object)
    {j : Nat} (hne : j ≠ i) :
    (Environment.set h i key val).get? j = h.get? j := by
  unfold Environment.set
  cases hg : h.get? i with
  | none => rfl
  | some env => exact List.get?_set_ne _ _ (Ne.symm hne)

/-- `Environment::set` on a live cell rewrites exactly that cell's store. -/
theorem set_get?_eq {h : Heap} {i : Nat} {env : InnerEnvironment}
    (hg : h.get? i = some env) (key : String) (val : Object) :
    (Environment.set h i key val).get? i =
      some { env with store := storeInsert key val env.store } := by
  obtain ⟨hlt, -⟩ := List.get?_eq_some.mp hg
  unfold Environment.set
  rw [hg]
  exact List.get?_set_eq_of_lt _ (by simpa using hlt)

/-- The cell view of `set_get?_ne`. -/
theorem cell_set_ne (h : Heap) (i : Nat) (key : String) (val : Object)
    {j : Nat} (hne : j ≠ i) :
    cell (Environment.set h i key val) j = cell h j := by
  unfold cell
  rw [set_get?_ne h i key val hne]

/-- `Environment::set` never changes an outer link. -/
theorem outer_set (h : Heap) (i : Nat) (key : String) (val : Object) (j : Nat) :
    (cell (Environment.set h i key val) j).outer = (cell h j).outer := by
  by_cases hij : j = i
  · subst hij
    cases hg : h.get? j with
    | none =>
      have hset : Environment.set h j key val = h := by
        unfold Environment.set; rw [hg]
      rw [hset]
    | some env =>
      unfold cell
      rw [set_get?_eq hg key val, hg]
      rfl
  · rw [cell_set_ne h i key val hij]

/-- The allocation invariant survives `Environment::set`. -/
theorem wfHeap_set {h : Heap} (wf : WfHeap h) (i : Nat) (key : String)
    (val : Object) : WfHeap (Environment.set h i key val) := by
  intro j env hj o ho
  by_cases hij : j = i
  · subst hij
    cases hg : h.get? j with
    | none =>
      unfold Environment.set at hj
      rw [hg] at hj
      exact wf j env hj o ho
    | some env0 =>
      rw [set_get?_eq hg key val] at hj
      have henv : env = { env0 with store := storeInsert key val env0.store } :=
        (Option.some.inj hj).symm
      exact wf j env0 hg o (by rw [henv] at ho; exact ho)
  · rw [set_get?_ne h i key val hij] at hj
    exact wf j env hj o ho

/-- `Environment::set` never changes any outer chain. -/
theorem chainAux_set (h : Heap) (i : Nat) (key : String) (val : Object) :
    ∀ fuel j, chainAux (Environment.set h i key val) fuel j = chainAux h fuel j := by
  intro fuel
  induction fuel with
  | zero => intro j; rfl
  | succ fuel ih =>
    intro j
    simp only [chainAux, outer_set h i key val j]
    cases (cell h j).outer with
    | none => rfl
    | some o => simp [ih o]

/-- The chain view of `chainAux_set`. -/
theorem chain_set (h : Heap) (i : Nat) (key : String) (val : Object) (j : Nat) :
    chain (Environment.set h i key val) j = chain h j :=
  chainAux_set h i key val (j + 1) j

/-- `chainLookup` over indices other than the one being set is unchanged. -/
theorem chainLookup_set_ne (h : Heap) (i : Nat) (key : String) (val : Object)
    (key2 : String) :
    ∀ l : List Nat, (∀ m ∈ l, m ≠ i) →
      chainLookup (Environment.set h i key val) key2 l = chainLookup h key2 l := by
  intro l
  induction l with
  | nil => intro _; rfl
  | cons j rest ih =>
    intro hl
    have hj : j ≠ i := hl j (List.mem_cons_self j rest)
    simp only [chainLookup, cell_set_ne h i key val hj]
    cases storeLookup key2 (cell h j).store with
    | some v => rfl
    | none => exact ih fun m hm => hl m (List.mem_cons_of_mem j hm)

/-- Appending a fresh cell whose outer link stays inside the old heap
preserves the allocation invariant. -/
theorem wfHeap_append {h : Heap} (wf : WfHeap h) {e : InnerEnvironment}
    (he : ∀ o, e.outer = some o → o < h.length) : WfHeap (h ++ [e]) := by
  intro j env hj o ho
  rcases Nat.lt_or_ge j h.length with hlt | hge
  · rw [List.get?_append hlt] at hj
    exact wf j env hj o ho
  · rw [List.get?_append_right hge] at hj
    rcases Nat.eq_or_lt_of_le hge with heq | hlt2
    · rw [← heq, Nat.sub_self] at hj
      have henv : env = e := (Option.some.inj (by simpa using hj)).symm
      subst henv
      have := he o ho
      omega
    · have : j - h.length ≥ 1 := by omega
      rw [List.get?_eq_none.mpr (by simpa using this)] at hj
      exact absurd hj (by simp)

/-- The empty heap is well-formed. -/
theorem wfHeap_nil : WfHeap ([] : Heap) := by
  intro i env hg o ho
  simp [List.get?] at hg

/-- A one-cell heap with no outer link is well-formed (the heap after
`Environment::new()` on an empty heap). -/
theorem wfHeap_one : WfHeap ([⟨[], none⟩] : Heap) := by
  intro i env hg o ho
  match i, hg with
  | 0, hg =>
    have henv : env = ⟨[], none⟩ := (Option.some.inj (by simpa using hg)).symm
    rw [henv] at ho
    simp at ho
  | n + 1, hg => simp [List.get?] at hg

/-- A two-cell heap whose second cell encloses the first is well-formed
(the heap after `new` then `new_enclosed_environment`). -/
theorem wfHeap_two : WfHeap ([⟨[], none⟩, ⟨[], some 0⟩] : Heap) := by
  intro i env hg o ho
  match i, hg with
  | 0, hg =>
    have henv : env = ⟨[], none⟩ := (Option.some.inj (by simpa using hg)).symm
    rw [henv] at ho
    simp at ho
  | 1, hg =>
    have henv : env = ⟨[], some 0⟩ := (Option.some.inj (by simpa using hg)).symm
    rw [henv] at ho
    have : o = 0 := Option.some.inj ho.symm
    omega
  | n + 2, hg => simp [List.get?] at hg

/-- C1: `Environment::get` resolves in the local store first, otherwise
delegates to the outer environment when one is linked, and misses exactly
when the identifier is bound nowhere along the whole outer chain. -/
theorem C1_get_local_then_outer_none_iff_unbound (h : Heap) (i : Nat)
    (key : String) (wf : WfHeap h) :
    (Environment.get h i key =
      match storeLookup key (cell h i).store with
      | some v => some v
      | none =>
        match (cell h i).outer with
        | some o => Environment.get h o key
        | none => none)
    ∧ (Environment.get h i key = none ↔
        ∀ j ∈ chain h i, storeLookup key (cell h j).store = none) := by
  refine ⟨get_unfold wf i key, ?_⟩
  rw [get_eq_chainLookup wf, chainLookup_eq_none_iff]

/-- Witness for C1 at the heap `[⟨[], none⟩]` built by `Environment::new`. -/
theorem C1_witness :
    Environment.get ([⟨[], none⟩] : Heap) 0 "x" = none ↔
      ∀ j ∈ chain ([⟨[], none⟩] : Heap) 0,
        storeLookup "x" (cell ([⟨[], none⟩] : Heap) j).store = none :=
  (C1_get_local_then_outer_none_iff_unbound [⟨[], none⟩] 0 "x" wfHeap_one).2

/-- C2: `Environment::set` writes to the local store of the cell it is
called on alone: every other cell is unchanged, and a later `get` on any
environment of the outer chain still reads the old bindings. -/
theorem C2_set_writes_local_store_only (h : Heap) (i : Nat) (key : String)
    (val : Object) (wf : WfHeap h) :
    (∀ j, j ≠ i → (Environment.set h i key val).get? j = h.get? j)
    ∧ (∀ env, h.get? i = some env →
        (Environment.set h i key val).get? i =
          some { env with store := storeInsert key val env.store })
    ∧ (∀ j, j ∈ chain h i → j ≠ i →
        ∀ key2, Environment.get (Environment.set h i key val) j key2 =
          Environment.get h j key2) := by
  refine ⟨fun j hj => set_get?_ne h i key val hj,
    fun env hg => set_get?_eq hg key val, ?_⟩
  intro j hjchain hji key2
  have hjlt : j < i := Nat.lt_of_le_of_ne (chain_le wf i j hjchain) hji
  have wf' := wfHeap_set wf i key val
  rw [get_eq_chainLookup wf', get_eq_chainLookup wf,
    chain_set h i key val j]
  exact chainLookup_set_ne h i key val key2 (chain h j)
    fun m hm => by have := chain_le wf j m hm; omega

/-- Witness for C2 on the heap `[⟨[], none⟩, ⟨[], some 0⟩]`: setting on the
inner environment 1 leaves lookups on its outer environment 0 unchanged. -/
theorem C2_witness :
    Environment.get
        (Environment.set ([⟨[], none⟩, ⟨[], some 0⟩] : Heap) 1 "k"
          (Object.integer 5)) 0 "k" =
      Environment.get ([⟨[], none⟩, ⟨[], some 0⟩] : Heap) 0 "k" :=
  (C2_set_writes_local_store_only [⟨[], none⟩, ⟨[], some 0⟩] 1 "k"
    (Object.integer 5) wfHeap_two).2.2 0 (by decide) (by decide) "k"

/-- C9: a lookup of any identifier on the environment returned by
`Environment::new()` is unresolved: the fresh cell has an empty store and
no outer link. -/
theorem C9_new_environment_get_none (h : Heap) (key : String) :
    Environment.get (Environment.new h).1 (Environment.new h).2 key = none := by
  have hcell : (Environment.new h).1.get? h.length = some ⟨[], none⟩ := by
    unfold Environment.new
    rw [List.get?_append_right (Nat.le_refl _), Nat.sub_self]
    rfl
  show Environment.getAux (Environment.new h).1 (h.length + 1) h.length key = none
  simp [Environment.getAux, cell_of_some hcell, storeLookup]

/-- C10: well-formedness of the heap (every outer link points to an
earlier allocation) holds initially and is preserved by `new`,
`new_enclosed_environment` and `set`; on a well-formed heap every outer
chain strictly descends, hence is finite and acyclic, and the recursion of
`Environment::get` reaches its answer with any fuel beyond the starting
index: `get` terminates for every environment and key. -/
theorem C10_wfHeap_invariant_chain_acyclic_get_terminates :
    WfHeap ([] : Heap)
    ∧ (∀ h : Heap, WfHeap h → WfHeap (Environment.new h).1)
    ∧ (∀ (h : Heap) (out : Nat), WfHeap h → out < h.length →
        WfHeap (Environment.new_enclosed_environment h out).1)
    ∧ (∀ (h : Heap) (i : Nat) (key : String) (val : Object), WfHeap h →
        WfHeap (Environment.set h i key val))
    ∧ (∀ (h : Heap) (i : Nat), WfHeap h →
        (chain h i).Chain' (fun a b => b < a) ∧ (chain h i).Nodup)
    ∧ (∀ (h : Heap) (i : Nat) (key : String) (fuel : Nat), WfHeap h → i < fuel →
        Environment.getAux h fuel i key = Environment.get h i key) := by
  refine ⟨wfHeap_nil, ?_, ?_, fun h i key val wf => wfHeap_set wf i key val,
    ?_, ?_⟩
  · intro h wf
    exact wfHeap_append wf (by intro o ho; simp at ho)
  · intro h out wf hout
    refine wfHeap_append wf ?_
    intro o ho
    have : o = out := Option.some.inj ho.symm
    omega
  · intro h i wf
    have hchain := chain_chain'_gt wf i
    refine ⟨hchain, ?_⟩
    have hpw : (chain h i).Pairwise (fun a b => b < a) :=
      List.chain'_iff_pairwise.mp hchain
    exact hpw.imp fun hab => Nat.ne_of_gt hab
  · intro h i key fuel wf hfuel
    exact getAux_stable wf i fuel (i + 1) hfuel (Nat.lt_succ_self i) key

/-- Witness for C10 at concrete heaps: the invariant after one `new` and
one `new_enclosed_environment`, and a stable `get` with surplus fuel. -/
theorem C10_witness :
    WfHeap (Environment.new ([] : Heap)).1
    ∧ WfHeap (Environment.new_enclosed_environment (Environment.new ([] : Heap)).1
        (Environment.new ([] : Heap)).2).1
    ∧ Environment.getAux ([⟨[], none⟩, ⟨[], some 0⟩] : Heap) 7 1 "x" =
        Environment.get ([⟨[], none⟩, ⟨[], some 0⟩] : Heap) 1 "x" := by
  have base := C10_wfHeap_invariant_chain_acyclic_get_terminates
  refine ⟨base.2.1 [] base.1, ?_, ?_⟩
  · exact base.2.2.1 (Environment.new ([] : Heap)).1
      (Environment.new ([] : Heap)).2 (base.2.1 [] base.1) (by decide)
  · exact base.2.2.2.2.2 [⟨[], none⟩, ⟨[], some 0⟩] 1 "x" 7 wfHeap_two
      (by omega)

/-- After `set h e key val`, a chain lookup that passes only empty-for-`key`
stores before reaching `e` answers the new value. -/
theorem chainLookup_set_hit {h : Heap} {e : Nat} {key : String} {val : Object}
    {env : InnerEnvironment} (hg : h.get? e = some env) :
    ∀ pre rest : List Nat,
      (∀ j ∈ pre, storeLookup key (cell h j).store = none) →
      chainLookup (Environment.set h e key val) key (pre ++ e :: rest) =
        some val := by
  have hcell : cell (Environment.set h e key val) e =
      { env with store := storeInsert key val env.store } := by
    unfold cell
    rw [set_get?_eq hg]
    rfl
  intro pre
  induction pre with
  | nil =>
    intro rest _
    simp [chainLookup, hcell, storeLookup_insert_self]
  | cons j pre' ih =>
    intro rest hpre
    by_cases hje : j = e
    · subst hje
      simp [chainLookup, hcell, storeLookup_insert_self]
    · have hj : storeLookup key (cell h j).store = none :=
        hpre j (List.mem_cons_self j pre')
      simp only [List.cons_append, chainLookup,
        cell_set_ne h e key val hje, hj]
      exact ih rest fun m hm => hpre m (List.mem_cons_of_mem j hm)

/-- C3 as stated is false: with `e` allocated by `new`, `d` enclosing `e`,
and `k` first bound on `d` then on `e`, the environment `d` has `e` (the
clone's cell) on its outer chain yet `get d k` answers `d`'s own shadowing
binding, not the value just written through `e`. -/
theorem C3_counterexample :
    Environment.set
        (Environment.set
          (Environment.new_enclosed_environment (Environment.new ([] : Heap)).1
            (Environment.new ([] : Heap)).2).1
          (Environment.new_enclosed_environment (Environment.new ([] : Heap)).1
            (Environment.new ([] : Heap)).2).2
          "k" (Object.integer 1))
        (Environment.clone (Environment.new ([] : Heap)).2) "k"
        (Object.integer 2) =
      ([⟨[("k", Object.integer 2)], none⟩,
        ⟨[("k", Object.integer 1)], some 0⟩] : Heap)
    ∧ Environment.clone 0 ∈
        chain ([⟨[("k", Object.integer 2)], none⟩,
          ⟨[("k", Object.integer 1)], some 0⟩] : Heap) 1
    ∧ Environment.get ([⟨[("k", Object.integer 2)], none⟩,
          ⟨[("k", Object.integer 1)], some 0⟩] : Heap) 1 "k" =
        some (Object.integer 1)
    ∧ Environment.get ([⟨[("k", Object.integer 2)], none⟩,
          ⟨[("k", Object.integer 1)], some 0⟩] : Heap) 1 "k" ≠
        some (Object.integer 2) := by
  refine ⟨rfl, by decide, rfl, ?_⟩
  intro hc
  have h1 : Environment.get ([⟨[("k", Object.integer 2)], none⟩,
      ⟨[("k", Object.integer 1)], some 0⟩] : Heap) 1 "k" =
      some (Object.integer 1) := rfl
  rw [hc] at h1
  simp at h1

/-- C3 amended: a clone aliases the same live cell, so after
`set e key val` a `get` on the clone answers the new value, and so does a
`get` through any environment whose outer chain reaches `e` with `key`
unbound in every store searched before `e`. -/
theorem C3_clone_aliases_live_store (h : Heap) (e : Nat) (key : String)
    (val : Object) (wf : WfHeap h) (he : e < h.length) :
    Environment.get (Environment.set h e key val) (Environment.clone e) key =
      some val
    ∧ ∀ d pre rest, chain h d = pre ++ e :: rest →
        (∀ j ∈ pre, storeLookup key (cell h j).store = none) →
        Environment.get (Environment.set h e key val) d key = some val := by
  have hg : h.get? e = some (h.get ⟨e, he⟩) := List.get?_eq_get he
  have wf' := wfHeap_set wf e key val
  have hcell : cell (Environment.set h e key val) e =
      { h.get ⟨e, he⟩ with
        store := storeInsert key val (h.get ⟨e, he⟩).store } := by
    unfold cell
    rw [set_get?_eq hg]
    rfl
  constructor
  · rw [show Environment.clone e = e from rfl, get_unfold wf', hcell]
    simp [storeLookup_insert_self]
  · intro d pre rest hchain hpre
    rw [get_eq_chainLookup wf', chain_set h e key val d, hchain]
    exact chainLookup_set_hit hg pre rest hpre

/-- Witness for the amended C3: a fresh environment, and an enclosing pair
where the inner store does not bind the key. -/
theorem C3_witness :
    Environment.get
        (Environment.set ([⟨[], none⟩] : Heap) 0 "k" (Object.integer 7))
        (Environment.clone 0) "k" = some (Object.integer 7)
    ∧ Environment.get
        (Environment.set ([⟨[], none⟩, ⟨[], some 0⟩] : Heap) 0 "k"
          (Object.integer 7)) 1 "k" = some (Object.integer 7) := by
  constructor
  · exact (C3_clone_aliases_live_store [⟨[], none⟩] 0 "k" (Object.integer 7)
      wfHeap_one (by simp)).1
  · exact (C3_clone_aliases_live_store [⟨[], none⟩, ⟨[], some 0⟩] 0 "k"
      (Object.integer 7) wfHeap_two (by simp)).2 1 [1] [] rfl
      (by intro j hj; simp at hj; subst hj; rfl)

/-- Modelled from the spec: `isError` of the missing `evaluator.rs` —
an `Error` object is recognised so it can short-circuit (spec §4.2). -/
def isError : Object → Bool
  | Object.error _ => true
  | _ => false

/-- Modelled from the spec: recognising the internal `ReturnSignal`
control-flow wrapper of the missing `evaluator.rs` (spec §3, §4.2). -/
def isReturn : Object → Bool
  | Object.returnSignal _ => true
  | _ => false

/-- Modelled from the spec: the truthiness rule of the missing
`evaluator.rs` — any non-`Null`, non-`false` value is truthy (spec §4.2,
`If` rule). -/
def isTruthy : Object → Bool
  | Object.null => false
  | Object.boolean false => false
  | _ => true

/-- Modelled from the spec: the type tag of an object, used in runtime
error messages of the missing `evaluator.rs` (spec §4.2, §7). -/
def typeName : Object → String
  | Object.integer _ => "INTEGER"
  | Object.boolean _ => "BOOLEAN"
  | Object.null => "NULL"
  | Object.function _ _ _ => "FUNCTION"
  | Object.returnSignal _ => "RETURN"
  | Object.error _ => "ERROR"

/-- Modelled from the spec: prefix `!` of the missing `evaluator.rs` —
`!true → false`, `!false → true`, and `!<non-boolean> → false` (spec §4.2),
never an `Error`. -/
def evalBang : Object → Object
  | Object.boolean b => Object.boolean (!b)
  | _ => Object.boolean false

/-- Modelled from the spec: prefix `-` of the missing `evaluator.rs` —
only valid on `Integer`, otherwise an unknown-operator `Error`
(spec §4.2). -/
def evalMinus : Object → Object
  | Object.integer n => Object.integer (-n)
  | o => Object.error ("unknown operator: -" ++ typeName o)

/-- Modelled from the spec: infix operators of the missing `evaluator.rs`
(spec §4.2): arithmetic and relational on two `Integer`s (division
truncates toward zero), `==`/`!=` on two `Integer`s by numeric equality
and on two `Boolean`s by value equality; operands of different types give
a type-mismatch `Error`, any other combination an unknown-operator
`Error`. -/
def evalInfixOp (op : String) (l r : Object) : Object :=
  match l, r with
  | Object.integer a, Object.integer b =>
    if op = "+" then Object.integer (a + b)
    else if op = "-" then Object.integer (a - b)
    else if op = "*" then Object.integer (a * b)
    else if op = "/" then Object.integer (Int.div a b)
    else if op = "<" then Object.boolean (decide (a < b))
    else if op = ">" then Object.boolean (decide (b < a))
    else if op = "==" then Object.boolean (decide (a = b))
    else if op = "!=" then Object.boolean (!decide (a = b))
    else Object.error ("unknown operator: INTEGER " ++ op ++ " INTEGER")
  | Object.boolean a, Object.boolean b =>
    if op = "==" then Object.boolean (a == b)
    else if op = "!=" then Object.boolean (a != b)
    else Object.error ("unknown operator: BOOLEAN " ++ op ++ " BOOLEAN")
  | l, r =>
    if typeName l ≠ typeName r then
      Object.error ("type mismatch: " ++ typeName l ++ " " ++ op ++ " " ++ typeName r)
    else
      Object.error ("unknown operator: " ++ typeName l ++ " " ++ op ++ " " ++ typeName r)

/-- Modelled from the spec: unwrapping a `ReturnSignal` at a call (or
program) boundary in the missing `evaluator.rs` (spec §3, §4.2). -/
def unwrapReturn : Object → Object
  | Object.returnSignal v => v
  | o => o

/-- Modelled from the spec: binding each parameter of a called function to
the corresponding evaluated argument in the fresh enclosed environment
(spec §4.2; arity mismatch is left open by the spec §9, the common prefix
is bound). -/
def bindParams : Heap → Nat → List String → List Object → Heap
  | h, _, [], _ => h
  | h, _, _ :: _, [] => h
  | h, env, p :: ps, v :: vs => bindParams (Environment.set h env p v) env ps vs

mutual

/-- Modelled from the spec: expression evaluation of the missing
`evaluator.rs` (spec §4.2), with step fuel making the recursion through
stored function bodies total; `none` means the fuel ran out. -/
def evalExpr : Nat → Heap → Nat → Expression → Option (Heap × Object)
  | 0, _, _, _ => none
  | fuel + 1, h, env, e =>
    match e with
    | Expression.integerLiteral n => some (h, Object.integer n)
    | Expression.boolean b => some (h, Object.boolean b)
    | Expression.identifier name =>
      match Environment.get h env name with
      | some v => some (h, v)
      | none => some (h, Object.error ("identifier not found: " ++ name))
    | Expression.prefixExpr op right =>
      match evalExpr fuel h env right with
      | none => none
      | some (h₁, r) =>
        if isError r then some (h₁, r)
        else if op = "!" then some (h₁, evalBang r)
        else if op = "-" then some (h₁, evalMinus r)
        else some (h₁, Object.error ("unknown operator: " ++ op ++ typeName r))
    | Expression.infixExpr l r op =>
      match evalExpr fuel h env l with
      | none => none
      | some (h₁, lv) =>
        if isError lv then some (h₁, lv)
        else
          match evalExpr fuel h₁ env r with
          | none => none
          | some (h₂, rv) =>
            if isError rv then some (h₂, rv)
            else some (h₂, evalInfixOp op lv rv)
    | Expression.ifExpression cond cons alt =>
      match evalExpr fuel h env cond with
      | none => none
      | some (h₁, c) =>
        if isError c then some (h₁, c)
        else if isTruthy c then evalBlock fuel h₁ env cons
        else
          match alt with
          | some b => evalBlock fuel h₁ env b
          | none => some (h₁, Object.null)
    | Expression.functionLiteral ps body => some (h, Object.function ps body env)
    | Expression.callExpression fn args =>
      match evalExpr fuel h env fn with
      | none => none
      | some (h₁, f) =>
        if isError f then some (h₁, f)
        else
          match evalArgs fuel h₁ env args with
          | none => none
          | some (h₂, Sum.inl err) => some (h₂, err)
          | some (h₂, Sum.inr vals) => applyFunction fuel h₂ f vals

/-- Modelled from the spec: left-to-right argument evaluation of the
missing `evaluator.rs`, short-circuiting on the first `Error`
(spec §4.2, `Call` rule). -/
def evalArgs : Nat → Heap → Nat → List Expression →
    Option (Heap × (Object ⊕ List Object))
  | 0, _, _, _ => none
  | _ + 1, h, _, [] => some (h, Sum.inr [])
  | fuel + 1, h, env, a :: rest =>
    match evalExpr fuel h env a with
    | none => none
    | some (h₁, v) =>
      if isError v then some (h₁, Sum.inl v)
      else
        match evalArgs fuel h₁ env rest with
        | none => none
        | some (h₂, Sum.inl err) => some (h₂, Sum.inl err)
        | some (h₂, Sum.inr vs) => some (h₂, Sum.inr (v :: vs))

/-- Modelled from the spec: calling a value in the missing `evaluator.rs`
(spec §4.2, `Call` rule): a `Function` gets a fresh environment enclosed
in its captured one, parameters bound to arguments, its body evaluated
there and a resulting `ReturnSignal` unwrapped; calling any other value
is an `Error`. -/
def applyFunction : Nat → Heap → Object → List Object → Option (Heap × Object)
  | 0, _, _, _ => none
  | fuel + 1, h, Object.function ps body fenv, args =>
    match evalBlock fuel
        (bindParams (Environment.new_enclosed_environment h fenv).1
          (Environment.new_enclosed_environment h fenv).2 ps args)
        (Environment.new_enclosed_environment h fenv).2 body with
    | none => none
    | some (h₂, v) => some (h₂, unwrapReturn v)
  | _ + 1, h, f, _ => some (h, Object.error ("not a function: " ++ typeName f))

/-- Modelled from the spec: block evaluation of the missing
`evaluator.rs` (spec §4.1 block rule of §4.2). -/
def evalBlock : Nat → Heap → Nat → BlockStatement → Option (Heap × Object)
  | 0, _, _, _ => none
  | fuel + 1, h, env, BlockStatement.block ss => evalStmts fuel h env ss

/-- Modelled from the spec: statement-sequence evaluation of the missing
`evaluator.rs` (spec §4.2): statements run in order; an `Error` or a
`ReturnSignal` stops the block and is its result; otherwise the result is
the last statement's value, `Null` when empty. -/
def evalStmts : Nat → Heap → Nat → List Statement → Option (Heap × Object)
  | 0, _, _, _ => none
  | _ + 1, h, _, [] => some (h, Object.null)
  | fuel + 1, h, env, s :: rest =>
    match evalStmt fuel h env s with
    | none => none
    | some (h₁, v) =>
      if isError v then some (h₁, v)
      else if isReturn v then some (h₁, v)
      else
        match rest with
        | [] => some (h₁, v)
        | r :: rs => evalStmts fuel h₁ env (r :: rs)

/-- Modelled from the spec: statement evaluation of the missing
`evaluator.rs` (spec §4.2): `Let` binds in the current environment after a
non-`Error` evaluation, `Return` wraps a non-`Error` result in
`ReturnSignal`, an expression statement is its expression. -/
def evalStmt : Nat → Heap → Nat → Statement → Option (Heap × Object)
  | 0, _, _, _ => none
  | fuel + 1, h, env, Statement.letS name value =>
    match evalExpr fuel h env value with
    | none => none
    | some (h₁, v) =>
      if isError v then some (h₁, v)
      else some (Environment.set h₁ env name v, Object.null)
  | fuel + 1, h, env, Statement.returnS value =>
    match evalExpr fuel h env value with
    | none => none
    | some (h₁, v) =>
      if isError v then some (h₁, v)
      else some (h₁, Object.returnSignal v)
  | fuel + 1, h, env, Statement.exprS e => evalExpr fuel h env e

end

/-- Modelled from the spec: program evaluation of the missing
`evaluator.rs` (spec §4.2): evaluate the statements, and unwrap a final
`ReturnSignal` to its carried value. -/
def evalProgram (fuel : Nat) (h : Heap) (env : Nat) (p : Program) :
    Option (Heap × Object) :=
  match evalStmts fuel h env p.statements with
  | none => none
  | some (h₁, Object.returnSignal v) => some (h₁, v)
  | some r => some r

/-- A statement whose result is an `Error` or a `ReturnSignal` ends the
sequence: whatever statements follow cannot change the result. -/
theorem evalStmts_append_of_stop :
    ∀ (ss : List Statement) (fuel : Nat) (h : Heap) (env : Nat)
      (ts : List Statement) (h₂ : Heap) (v : Object),
      (isError v || isReturn v) = true →
      evalStmts fuel h env ss = some (h₂, v) →
      evalStmts fuel h env (ss ++ ts) = some (h₂, v) := by
  intro ss
  induction ss with
  | nil =>
    intro fuel h env ts h₂ v hstop hss
    match fuel, hss with
    | 0, hss => exact absurd hss (by simp [evalStmts])
    | fuel + 1, hss =>
      simp only [evalStmts, Option.some.injEq, Prod.mk.injEq] at hss
      rw [← hss.2] at hstop
      simp [isError, isReturn] at hstop
  | cons s rest ih =>
    intro fuel h env ts h₂ v hstop hss
    match fuel, hss with
    | 0, hss => exact absurd hss (by simp [evalStmts])
    | fuel + 1, hss =>
      rcases he : evalStmt fuel h env s with _ | ⟨h₁, w⟩
      · rw [evalStmts, he] at hss
        exact absurd hss (by simp)
      · rw [evalStmts, he] at hss
        rw [List.cons_append, evalStmts, he]
        cases hE : isError w with
        | true => simpa [hE] using hss
        | false =>
          cases hR : isReturn w with
          | true => simpa [hE, hR] using hss
          | false =>
            simp only [hE, hR, if_false, Bool.false_eq_true] at hss ⊢
            cases rest with
            | nil =>
              have hw : w = v := by
                have := Option.some.inj hss
                exact congrArg Prod.snd this
              rw [hw] at hE hR
              rw [hE, hR] at hstop
              simp at hstop
            | cons r rs =>
              simp only [List.cons_append]
              exact ih fuel h₁ env ts h₂ v hstop hss

/-- Shared concrete expression `5 + true` of the spec's error-propagation
example. -/
def fivePlusTrue : Expression :=
  Expression.infixExpr (Expression.integerLiteral 5) (Expression.boolean true) "+"

/-- C4: an `Error` produced by a statement ends the sequence (for blocks
and for `Program`) and is passed through unchanged by the enclosing
program result and by an enclosing `if` condition; concretely `5 + true`
is a type-mismatch `Error` and `if (5 + true) { 1; }` is that same
`Error` with the consequence never evaluated. -/
theorem C4_error_short_circuit_propagation :
    (∀ (fuel : Nat) (h : Heap) (env : Nat) (ss ts : List Statement)
        (h₂ : Heap) (msg : String),
      evalStmts fuel h env ss = some (h₂, Object.error msg) →
      evalStmts fuel h env (ss ++ ts) = some (h₂, Object.error msg))
    ∧ (∀ (fuel : Nat) (h : Heap) (env : Nat) (stmts : List Statement)
        (h₂ : Heap) (msg : String),
      evalStmts fuel h env stmts = some (h₂, Object.error msg) →
      evalProgram fuel h env ⟨stmts⟩ = some (h₂, Object.error msg))
    ∧ (∀ (fuel : Nat) (h : Heap) (env : Nat) (c : Expression)
        (cons : BlockStatement) (alt : Option BlockStatement)
        (h₁ : Heap) (msg : String),
      evalExpr fuel h env c = some (h₁, Object.error msg) →
      evalExpr (fuel + 1) h env (Expression.ifExpression c cons alt) =
        some (h₁, Object.error msg))
    ∧ (∀ (h : Heap) (env : Nat),
      evalExpr 5 h env fivePlusTrue =
        some (h, Object.error "type mismatch: INTEGER + BOOLEAN"))
    ∧ (∀ (h : Heap) (env : Nat),
      evalExpr 6 h env
          (Expression.ifExpression fivePlusTrue
            (BlockStatement.block [Statement.exprS (Expression.integerLiteral 1)])
            none) =
        some (h, Object.error "type mismatch: INTEGER + BOOLEAN")) := by
  refine ⟨?_, ?_, ?_, ?_, ?_⟩
  · intro fuel h env ss ts h₂ msg hss
    exact evalStmts_append_of_stop ss fuel h env ts h₂ (Object.error msg)
      (by simp [isError]) hss
  · intro fuel h env stmts h₂ msg hss
    simp [evalProgram, hss]
  · intro fuel h env c cons alt h₁ msg hc
    simp [evalExpr, hc, isError]
  · intro h env
    simp [fivePlusTrue, evalExpr, evalInfixOp, isError, typeName]
  · intro h env
    simp [fivePlusTrue, evalExpr, evalInfixOp, isError, typeName]

/-- Witness for C4: the error of `5 + true;` ends a two-statement
sequence. -/
theorem C4_witness :
    evalStmts 6 [] 0
        ([Statement.exprS fivePlusTrue] ++ [Statement.exprS (Expression.integerLiteral 1)]) =
      some ([], Object.error "type mismatch: INTEGER + BOOLEAN") :=
  C4_error_short_circuit_propagation.1 6 [] 0 [Statement.exprS fivePlusTrue]
    [Statement.exprS (Expression.integerLiteral 1)] [] "type mismatch: INTEGER + BOOLEAN"
    (by simp [evalStmts, evalStmt, fivePlusTrue, evalExpr, evalInfixOp, isError, typeName])

/-- C5: a `ReturnSignal` produced by a statement ends the sequence; it is
unwrapped to its carried value at the `Program` top level and at the
boundary of a function call; concretely `if (true) { return 10; 1; }`
evaluates to `10` and `1;` never affects the result. -/
theorem C5_return_signal_short_circuit_unwrap :
    (∀ (fuel : Nat) (h : Heap) (env : Nat) (ss ts : List Statement)
        (h₂ : Heap) (v : Object),
      evalStmts fuel h env ss = some (h₂, Object.returnSignal v) →
      evalStmts fuel h env (ss ++ ts) = some (h₂, Object.returnSignal v))
    ∧ (∀ (fuel : Nat) (h : Heap) (env : Nat) (stmts : List Statement)
        (h₂ : Heap) (v : Object),
      evalStmts fuel h env stmts = some (h₂, Object.returnSignal v) →
      evalProgram fuel h env ⟨stmts⟩ = some (h₂, v))
    ∧ (∀ (fuel : Nat) (h : Heap) (ps : List String) (body : BlockStatement)
        (fenv : Nat) (args : List Object) (h₂ : Heap) (v : Object),
      evalBlock fuel
          (bindParams (Environment.new_enclosed_environment h fenv).1
            (Environment.new_enclosed_environment h fenv).2 ps args)
          (Environment.new_enclosed_environment h fenv).2 body =
        some (h₂, Object.returnSignal v) →
      applyFunction (fuel + 1) h (Object.function ps body fenv) args =
        some (h₂, v))
    ∧ (∀ (h : Heap) (env : Nat),
      evalProgram 8 h env
          ⟨[Statement.exprS
            (Expression.ifExpression (Expression.boolean true)
              (BlockStatement.block
                [Statement.returnS (Expression.integerLiteral 10),
                 Statement.exprS (Expression.integerLiteral 1)])
              none)]⟩ =
        some (h, Object.integer 10)) := by
  refine ⟨?_, ?_, ?_, ?_⟩
  · intro fuel h env ss ts h₂ v hss
    exact evalStmts_append_of_stop ss fuel h env ts h₂ (Object.returnSignal v)
      (by simp [isError, isReturn]) hss
  · intro fuel h env stmts h₂ v hss
    simp [evalProgram, hss]
  · intro fuel h ps body fenv args h₂ v hbody
    simp [applyFunction, hbody, unwrapReturn]
  · intro h env
    simp [evalProgram, evalStmts, evalStmt, evalExpr, evalBlock, isError,
      isReturn, isTruthy]

/-- Witness for C5: the sequence `return 10; 1;` stops at the return, and
a call whose body returns is unwrapped to the carried value. -/
theorem C5_witness :
    evalStmts 8 [] 0
        ([Statement.returnS (Expression.integerLiteral 10)] ++
          [Statement.exprS (Expression.integerLiteral 1)]) =
      some ([], Object.returnSignal (Object.integer 10))
    ∧ applyFunction 5 []
        (Object.function [] (BlockStatement.block
          [Statement.returnS (Expression.integerLiteral 10)]) 0) [] =
      some ([⟨[], some 0⟩], Object.integer 10) := by
  constructor
  · exact C5_return_signal_short_circuit_unwrap.1 8 [] 0
      [Statement.returnS (Expression.integerLiteral 10)]
      [Statement.exprS (Expression.integerLiteral 1)] []
      (Object.integer 10)
      (by simp [evalStmts, evalStmt, evalExpr, isError])
  · exact C5_return_signal_short_circuit_unwrap.2.2.1 4 [] []
      (BlockStatement.block [Statement.returnS (Expression.integerLiteral 10)])
      0 [] [⟨[], some 0⟩] (Object.integer 10)
      (by simp [evalBlock, evalStmts, evalStmt, evalExpr, isError,
        bindParams, Environment.new_enclosed_environment])

/-- C6: prefix `!` is boolean negation on `Boolean` operands and yields
`false` on every non-boolean operand (`Null` and every `Integer`
included, so `!5` is `false`), never an `Error`. -/
theorem C6_bang_negation_truthiness_fallback :
    evalBang (Object.boolean true) = Object.boolean false
    ∧ evalBang (Object.boolean false) = Object.boolean true
    ∧ (∀ o : Object, (∀ b, o ≠ Object.boolean b) →
        evalBang o = Object.boolean false)
    ∧ (∀ o : Object, isError (evalBang o) = false)
    ∧ (∀ (fuel : Nat) (h : Heap) (env : Nat) (r : Expression)
        (h₁ : Heap) (v : Object),
      evalExpr fuel h env r = some (h₁, v) → isError v = false →
      evalExpr (fuel + 1) h env (Expression.prefixExpr "!" r) =
        some (h₁, evalBang v))
    ∧ (∀ (h : Heap) (env : Nat),
      evalExpr 2 h env (Expression.prefixExpr "!" (Expression.integerLiteral 5)) =
        some (h, Object.boolean false)) := by
  refine ⟨rfl, rfl, ?_, ?_, ?_, ?_⟩
  · intro o hb
    cases o with
    | boolean b => exact absurd rfl (hb b)
    | integer n => rfl
    | null => rfl
    | function ps body env => rfl
    | returnSignal v => rfl
    | error m => rfl
  · intro o
    cases o <;> rfl
  · intro fuel h env r h₁ v hr hv
    simp [evalExpr, hr, hv]
  · intro h env
    simp [evalExpr, evalBang, isError]

/-- Witness for C6: `!true` evaluated through the evaluator. -/
theorem C6_witness :
    evalExpr 2 [] 0 (Expression.prefixExpr "!" (Expression.boolean true)) =
      some ([], evalBang (Object.boolean true)) :=
  C6_bang_negation_truthiness_fallback.2.2.2.2.1 1 [] 0
    (Expression.boolean true) [] (Object.boolean true)
    (by simp [evalExpr]) rfl

/-- C7: `==` and `!=` on an `Integer` and a `Boolean` (either order) are a
type-mismatch `Error`; on two `Integer`s they are numeric (in)equality and
on two `Boolean`s value (in)equality. -/
theorem C7_eq_neq_mixed_type_mismatch :
    (∀ (a : Int) (b : Bool),
      evalInfixOp "==" (Object.integer a) (Object.boolean b) =
        Object.error "type mismatch: INTEGER == BOOLEAN"
      ∧ evalInfixOp "!=" (Object.integer a) (Object.boolean b) =
        Object.error "type mismatch: INTEGER != BOOLEAN"
      ∧ evalInfixOp "==" (Object.boolean b) (Object.integer a) =
        Object.error "type mismatch: BOOLEAN == INTEGER"
      ∧ evalInfixOp "!=" (Object.boolean b) (Object.integer a) =
        Object.error "type mismatch: BOOLEAN != INTEGER")
    ∧ (∀ a b : Int,
      evalInfixOp "==" (Object.integer a) (Object.integer b) =
        Object.boolean (decide (a = b))
      ∧ evalInfixOp "!=" (Object.integer a) (Object.integer b) =
        Object.boolean (!decide (a = b)))
    ∧ (∀ a b : Bool,
      evalInfixOp "==" (Object.boolean a) (Object.boolean b) =
        Object.boolean (a == b)
      ∧ evalInfixOp "!=" (Object.boolean a) (Object.boolean b) =
        Object.boolean (a != b))
    ∧ (∀ (fuel : Nat) (h : Heap) (env : Nat) (l r : Expression)
        (h₁ h₂ : Heap) (a : Int) (b : Bool),
      evalExpr fuel h env l = some (h₁, Object.integer a) →
      evalExpr fuel h₁ env r = some (h₂, Object.boolean b) →
      evalExpr (fuel + 1) h env (Expression.infixExpr l r "==") =
        some (h₂, Object.error "type mismatch: INTEGER == BOOLEAN")) := by
  refine ⟨?_, ?_, ?_, ?_⟩
  · intro a b
    refine ⟨?_, ?_, ?_, ?_⟩ <;> simp [evalInfixOp, typeName]
  · intro a b
    exact ⟨by simp [evalInfixOp], by simp [evalInfixOp]⟩
  · intro a b
    exact ⟨by simp [evalInfixOp], by simp [evalInfixOp]⟩
  · intro fuel h env l r h₁ h₂ a b hl hr
    simp [evalExpr, hl, hr, isError, evalInfixOp, typeName]

/-- Witness for C7: `5 == true` through the evaluator. -/
theorem C7_witness :
    evalExpr 2 [] 0
        (Expression.infixExpr (Expression.integerLiteral 5)
          (Expression.boolean true) "==") =
      some ([], Object.error "type mismatch: INTEGER == BOOLEAN") :=
  C7_eq_neq_mixed_type_mismatch.2.2.2 1 [] 0 (Expression.integerLiteral 5)
    (Expression.boolean true) [] [] 5 true (by simp [evalExpr])
    (by simp [evalExpr])

/-- Modelled from the spec: the token categories of the external token
source (spec §2, §6, §4.1); `lexer.rs` and `token.rs` are declared by
`main.rs` but absent from `src/`.  `illegal` stands for a chunk of printed
text that no token category lexes (such as the quoted parameter names the
`Debug` printer emits). -/
inductive Token : Type where
  | ident : String → Token
  | int : Int → Token
  | kwLet : Token
  | kwReturn : Token
  | kwIf : Token
  | kwElse : Token
  | kwFn : Token
  | kwTrue : Token
  | kwFalse : Token
  | lparen : Token
  | rparen : Token
  | lbrace : Token
  | rbrace : Token
  | comma : Token
  | semicolon : Token
  | assign : Token
  | plus : Token
  | minus : Token
  | asterisk : Token
  | slash : Token
  | bang : Token
  | lt : Token
  | gt : Token
  | eq : Token
  | notEq : Token
  | illegal : String → Token
deriving DecidableEq

/-- Modelled from the spec: the infix precedence table of the missing
`parser.rs` (spec §4.1): equality < relational < additive <
multiplicative < call; every other token has the lowest precedence. -/
def precedence : Token → Nat
  | Token.eq => 2
  | Token.notEq => 2
  | Token.lt => 3
  | Token.gt => 3
  | Token.plus => 4
  | Token.minus => 4
  | Token.asterisk => 5
  | Token.slash => 5
  | Token.lparen => 7
  | _ => 0

/-- Modelled from the spec: the precedence of a prefix operator's operand
(spec §4.1, between multiplicative and call). -/
def prefixPrecedence : Nat := 6

/-- The operator text an infix token carries into the AST. -/
def tokenOpString : Token → String
  | Token.plus => "+"
  | Token.minus => "-"
  | Token.asterisk => "*"
  | Token.slash => "/"
  | Token.lt => "<"
  | Token.gt => ">"
  | Token.eq => "=="
  | Token.notEq => "!="
  | _ => ""

/-- The token the printed text of an operator string lexes to. -/
def opToken (op : String) : Token :=
  if op = "+" then Token.plus
  else if op = "-" then Token.minus
  else if op = "*" then Token.asterisk
  else if op = "/" then Token.slash
  else if op = "<" then Token.lt
  else if op = ">" then Token.gt
  else if op = "==" then Token.eq
  else if op = "!=" then Token.notEq
  else if op = "!" then Token.bang
  else Token.illegal op

/-- The Rust `Debug` rendering of a `String` keeps its quotes; printed
function parameters therefore appear quoted (`src/ast.rs`, the
`FunctionLiteral` arm formats each parameter with `{:?}`). -/
def quoteDebug (s : String) : String :=
  "\"" ++ s ++ "\""

/-- The token sequence of the printed parameter list of `src/ast.rs`:
each parameter is `Debug`-quoted, hence lexes to no Monkey token. -/
def printParams : List String → List Token
  | [] => []
  | [p] => [Token.illegal (quoteDebug p)]
  | p :: rest => Token.illegal (quoteDebug p) :: Token.comma :: printParams rest

mutual

/-- The token sequence of the `fmt::Debug` rendering of an `Expression`
in `src/ast.rs`: prefix and infix expressions fully parenthesised,
`if (c) {…}` with an optional `else {…}`, `fn (params) {…}`,
`f(arg, …)`. -/
def printExpr : Expression → List Token
  | Expression.integerLiteral n => [Token.int n]
  | Expression.identifier s => [Token.ident s]
  | Expression.prefixExpr op r =>
    Token.lparen :: opToken op :: (printExpr r ++ [Token.rparen])
  | Expression.infixExpr l r op =>
    Token.lparen :: (printExpr l ++ opToken op :: (printExpr r ++ [Token.rparen]))
  | Expression.boolean true => [Token.kwTrue]
  | Expression.boolean false => [Token.kwFalse]
  | Expression.ifExpression c cons alt =>
    Token.kwIf :: Token.lparen ::
      (printExpr c ++ Token.rparen ::
        (printBlock cons ++
          match alt with
          | some b => Token.kwElse :: printBlock b
          | none => []))
  | Expression.functionLiteral ps body =>
    Token.kwFn :: Token.lparen :: (printParams ps ++ Token.rparen :: printBlock body)
  | Expression.callExpression f args =>
    printExpr f ++ Token.lparen :: (printArgsTokens args ++ [Token.rparen])

/-- The token sequence of the printed call-argument list of `src/ast.rs`
(arguments joined by `", "`). -/
def printArgsTokens : List Expression → List Token
  | [] => []
  | [a] => printExpr a
  | a :: rest => printExpr a ++ Token.comma :: printArgsTokens rest

/-- The token sequence of the `fmt::Debug` rendering of a `Statement` in
`src/ast.rs`: `let n = v;`, `return v;`, or the bare expression. -/
def printStmt : Statement → List Token
  | Statement.letS name v =>
    Token.kwLet :: Token.ident name :: Token.assign :: (printExpr v ++ [Token.semicolon])
  | Statement.returnS v => Token.kwReturn :: (printExpr v ++ [Token.semicolon])
  | Statement.exprS v => printExpr v

/-- The token sequence of the `fmt::Debug` rendering of a
`BlockStatement` in `src/ast.rs`: the statements joined by `"; "`,
braced. -/
def printBlock : BlockStatement → List Token
  | BlockStatement.block ss => Token.lbrace :: (printStmtsJoined ss ++ [Token.rbrace])

/-- The `"; "`-join of `src/ast.rs`'s `BlockStatement` printing: a
separator `;` between consecutive statements (in addition to any `;` a
`let`/`return` statement prints itself). -/
def printStmtsJoined : List Statement → List Token
  | [] => []
  | [s] => printStmt s
  | s :: rest => printStmt s ++ Token.semicolon :: printStmtsJoined rest

end

/-- The token sequence of the `fmt::Debug` rendering of a `Program` in
`src/ast.rs`: the statements printed one after the other with no
separator. -/
def printProgram (p : Program) : List Token :=
  (p.statements.map printStmt).join

/-- Modelled from the spec: the optional trailing-semicolon consumption
of the missing `parser.rs` (spec §4.1: a trailing `;` is
optional/consumed if present). -/
def skipSemicolon : List Token → List Token
  | Token.semicolon :: ts => ts
  | ts => ts

/-- Modelled from the spec: the tail of the comma-separated parameter
list of the missing `parser.rs` (spec §4.1). -/
def parseMoreParams : List Token → Except String (List String × List Token)
  | Token.comma :: Token.ident s :: ts =>
    match parseMoreParams ts with
    | Except.error e => Except.error e
    | Except.ok (ps, ts₁) => Except.ok (s :: ps, ts₁)
  | Token.rparen :: ts => Except.ok ([], ts)
  | _ => Except.error "expected , or ) in parameter list"

/-- Modelled from the spec: the parenthesised, comma-separated parameter
identifier list of the missing `parser.rs` (spec §4.1), the opening `(`
already consumed. -/
def parseParams : List Token → Except String (List String × List Token)
  | Token.rparen :: ts => Except.ok ([], ts)
  | Token.ident s :: ts =>
    match parseMoreParams ts with
    | Except.error e => Except.error e
    | Except.ok (ps, ts₁) => Except.ok (s :: ps, ts₁)
  | _ => Except.error "expected identifier or ) in parameter list"

mutual

/-- Modelled from the spec: `parseExpression(minPrecedence)` of the
missing `parser.rs` (spec §4.1): the prefix rule of the current token
gives the left operand, then infix rules apply while the next token's
precedence exceeds `minPrec`.  The fuel decreases at every step; running
out is a parse error. -/
def parseExpression : Nat → Nat → List Token → Except String (Expression × List Token)
  | 0, _, _ => Except.error "parser fuel exhausted"
  | fuel + 1, minPrec, ts =>
    match parsePrefixRule fuel ts with
    | Except.error e => Except.error e
    | Except.ok (left, ts₁) => parseInfixLoop fuel minPrec left ts₁

/-- Modelled from the spec: the prefix parse rules of the missing
`parser.rs` (spec §4.1): integer, identifier, boolean literals, `!`/`-`
prefix operators, grouped `(…)`, `if`, `fn`; any other token has no
prefix rule and is a parse error. -/
def parsePrefixRule : Nat → List Token → Except String (Expression × List Token)
  | 0, _ => Except.error "parser fuel exhausted"
  | fuel + 1, ts =>
    match ts with
    | Token.int n :: ts₁ => Except.ok (Expression.integerLiteral n, ts₁)
    | Token.ident s :: ts₁ => Except.ok (Expression.identifier s, ts₁)
    | Token.kwTrue :: ts₁ => Except.ok (Expression.boolean true, ts₁)
    | Token.kwFalse :: ts₁ => Except.ok (Expression.boolean false, ts₁)
    | Token.bang :: ts₁ =>
      match parseExpression fuel prefixPrecedence ts₁ with
      | Except.error e => Except.error e
      | Except.ok (right, ts₂) => Except.ok (Expression.prefixExpr "!" right, ts₂)
    | Token.minus :: ts₁ =>
      match parseExpression fuel prefixPrecedence ts₁ with
      | Except.error e => Except.error e
      | Except.ok (right, ts₂) => Except.ok (Expression.prefixExpr "-" right, ts₂)
    | Token.lparen :: ts₁ =>
      match parseExpression fuel 0 ts₁ with
      | Except.error e => Except.error e
      | Except.ok (e, ts₂) =>
        match ts₂ with
        | Token.rparen :: ts₃ => Except.ok (e, ts₃)
        | _ => Except.error "expected )"
    | Token.kwIf :: ts₁ => parseIf fuel ts₁
    | Token.kwFn :: ts₁ => parseFn fuel ts₁
    | _ => Except.error "no prefix parse rule for token"

/-- Modelled from the spec: the infix loop of the missing `parser.rs`
(spec §4.1): while the next token's precedence exceeds `minPrec`, apply
its infix rule — `(` as the call rule, an operator token by parsing its
right operand at the operator's precedence — replacing the left
operand. -/
def parseInfixLoop : Nat → Nat → Expression → List Token →
    Except String (Expression × List Token)
  | 0, _, _, _ => Except.error "parser fuel exhausted"
  | fuel + 1, minPrec, left, ts =>
    match ts with
    | [] => Except.ok (left, [])
    | t :: ts₁ =>
      if minPrec < precedence t then
        match t with
        | Token.lparen =>
          match parseCallArgs fuel ts₁ with
          | Except.error e => Except.error e
          | Except.ok (args, ts₂) =>
            parseInfixLoop fuel minPrec (Expression.callExpression left args) ts₂
        | _ =>
          match parseExpression fuel (precedence t) ts₁ with
          | Except.error e => Except.error e
          | Except.ok (right, ts₂) =>
            parseInfixLoop fuel minPrec
              (Expression.infixExpr left right (tokenOpString t)) ts₂
      else Except.ok (left, t :: ts₁)

/-- Modelled from the spec: the call-argument list of the missing
`parser.rs` (spec §4.1), the opening `(` already consumed. -/
def parseCallArgs : Nat → List Token → Except String (List Expression × List Token)
  | 0, _ => Except.error "parser fuel exhausted"
  | fuel + 1, ts =>
    match ts with
    | Token.rparen :: ts₁ => Except.ok ([], ts₁)
    | _ =>
      match parseExpression fuel 0 ts with
      | Except.error e => Except.error e
      | Except.ok (a, ts₁) =>
        match parseMoreArgs fuel ts₁ with
        | Except.error e => Except.error e
        | Except.ok (more, ts₂) => Except.ok (a :: more, ts₂)

/-- Modelled from the spec: the comma-continued tail of a call-argument
list of the missing `parser.rs` (spec §4.1). -/
def parseMoreArgs : Nat → List Token → Except String (List Expression × List Token)
  | 0, _ => Except.error "parser fuel exhausted"
  | fuel + 1, ts =>
    match ts with
    | Token.comma :: ts₁ =>
      match parseExpression fuel 0 ts₁ with
      | Except.error e => Except.error e
      | Except.ok (a, ts₂) =>
        match parseMoreArgs fuel ts₂ with
        | Except.error e => Except.error e
        | Except.ok (more, ts₃) => Except.ok (a :: more, ts₃)
    | Token.rparen :: ts₁ => Except.ok ([], ts₁)
    | _ => Except.error "expected , or ) in argument list"

/-- Modelled from the spec: `if` parsing of the missing `parser.rs`
(spec §4.1): a parenthesised condition, a block consequence, and an
optional `else` block, the `if` keyword already consumed. -/
def parseIf : Nat → List Token → Except String (Expression × List Token)
  | 0, _ => Except.error "parser fuel exhausted"
  | fuel + 1, ts =>
    match ts with
    | Token.lparen :: ts₁ =>
      match parseExpression fuel 0 ts₁ with
      | Except.error e => Except.error e
      | Except.ok (cond, ts₂) =>
        match ts₂ with
        | Token.rparen :: Token.lbrace :: ts₃ =>
          match parseBlock fuel ts₃ with
          | Except.error e => Except.error e
          | Except.ok (cons, ts₄) =>
            match ts₄ with
            | Token.kwElse :: Token.lbrace :: ts₅ =>
              match parseBlock fuel ts₅ with
              | Except.error e => Except.error e
              | Except.ok (alt, ts₆) =>
                Except.ok (Expression.ifExpression cond cons (some alt), ts₆)
            | _ => Except.ok (Expression.ifExpression cond cons none, ts₄)
        | _ => Except.error "expected ) followed by a block"
    | _ => Except.error "expected ( after if"

/-- Modelled from the spec: function-literal parsing of the missing
`parser.rs` (spec §4.1): a parenthesised parameter list then a block
body, the `fn` keyword already consumed. -/
def parseFn : Nat → List Token → Except String (Expression × List Token)
  | 0, _ => Except.error "parser fuel exhausted"
  | fuel + 1, ts =>
    match ts with
    | Token.lparen :: ts₁ =>
      match parseParams ts₁ with
      | Except.error e => Except.error e
      | Except.ok (ps, ts₂) =>
        match ts₂ with
        | Token.lbrace :: ts₃ =>
          match parseBlock fuel ts₃ with
          | Except.error e => Except.error e
          | Except.ok (body, ts₄) =>
            Except.ok (Expression.functionLiteral ps body, ts₄)
        | _ => Except.error "expected block after parameters"
    | _ => Except.error "expected ( after fn"

/-- Modelled from the spec: block parsing of the missing `parser.rs`
(spec §4.1): statements up to the closing `}`, the opening `{` already
consumed. -/
def parseBlock : Nat → List Token → Except String (BlockStatement × List Token)
  | 0, _ => Except.error "parser fuel exhausted"
  | fuel + 1, ts =>
    match ts with
    | Token.rbrace :: ts₁ => Except.ok (BlockStatement.block [], ts₁)
    | _ =>
      match parseStatement fuel ts with
      | Except.error e => Except.error e
      | Except.ok (s, ts₁) =>
        match parseBlock fuel ts₁ with
        | Except.error e => Except.error e
        | Except.ok (BlockStatement.block ss, ts₂) =>
          Except.ok (BlockStatement.block (s :: ss), ts₂)

/-- Modelled from the spec: statement parsing of the missing `parser.rs`
(spec §4.1): `let <identifier> = <expression>;`,
`return <expression>;`, or a bare expression statement, a trailing `;`
optional. -/
def parseStatement : Nat → List Token → Except String (Statement × List Token)
  | 0, _ => Except.error "parser fuel exhausted"
  | fuel + 1, ts =>
    match ts with
    | Token.kwLet :: Token.ident name :: Token.assign :: ts₁ =>
      match parseExpression fuel 0 ts₁ with
      | Except.error e => Except.error e
      | Except.ok (v, ts₂) => Except.ok (Statement.letS name v, skipSemicolon ts₂)
    | Token.kwLet :: _ => Except.error "expected identifier and = after let"
    | Token.kwReturn :: ts₁ =>
      match parseExpression fuel 0 ts₁ with
      | Except.error e => Except.error e
      | Except.ok (v, ts₂) => Except.ok (Statement.returnS v, skipSemicolon ts₂)
    | _ =>
      match parseExpression fuel 0 ts with
      | Except.error e => Except.error e
      | Except.ok (e, ts₂) => Except.ok (Statement.exprS e, skipSemicolon ts₂)

end

/-- Modelled from the spec: the statement loop of the missing `parser.rs`
with its accumulating error list (spec §4.1, §7): on a failed statement
the diagnostic is recorded, one token is skipped and parsing continues
best-effort; a non-empty diagnostic list means no AST is produced. -/
def parseProgramAux : Nat → List Token → List String → List Statement →
    Except (List String) Program
  | 0, _, _, _ => Except.error ["parser fuel exhausted"]
  | _ + 1, [], errs, acc =>
    match errs with
    | [] => Except.ok ⟨acc.reverse⟩
    | _ => Except.error errs.reverse
  | fuel + 1, t :: ts, errs, acc =>
    match parseStatement fuel (t :: ts) with
    | Except.ok (s, ts₁) => parseProgramAux fuel ts₁ errs (s :: acc)
    | Except.error e => parseProgramAux fuel ts (e :: errs) acc

/-- Modelled from the spec: whole-program parsing of the missing
`parser.rs` (spec §4.1). -/
def parseProgram (fuel : Nat) (ts : List Token) : Except (List String) Program :=
  parseProgramAux fuel ts [] []

mutual

/-- The printed fragment of the language on which the printer of
`src/ast.rs` is faithfully re-lexable and re-parsable: integer literals
non-negative (the parser never produces negative literals), operator
strings the real ones, function literals without parameters (printed
parameters are `Debug`-quoted and lex to no token), and inside a block
every statement but the last an expression statement (a printed
`let`/`return` already ends in `;`, and the `"; "` join would produce
`;;`, which has no parse). -/
def wfExpr : Expression → Bool
  | Expression.integerLiteral n => decide (0 ≤ n)
  | Expression.identifier _ => true
  | Expression.prefixExpr op r => (op = "!" || op = "-") && wfExpr r
  | Expression.infixExpr l r op =>
    (op = "+" || op = "-" || op = "*" || op = "/" ||
      op = "<" || op = ">" || op = "==" || op = "!=") && wfExpr l && wfExpr r
  | Expression.boolean _ => true
  | Expression.ifExpression c cons alt =>
    wfExpr c && wfBlock cons &&
      (match alt with
       | some b => wfBlock b
       | none => true)
  | Expression.functionLiteral ps body => ps.isEmpty && wfBlock body
  | Expression.callExpression f args => wfExpr f && wfExprList args

/-- All of a list of argument expressions are printable-parsable. -/
def wfExprList : List Expression → Bool
  | [] => true
  | e :: rest => wfExpr e && wfExprList rest

/-- A printable-parsable statement: its value expression is one. -/
def wfStmt : Statement → Bool
  | Statement.letS _ v => wfExpr v
  | Statement.returnS v => wfExpr v
  | Statement.exprS v => wfExpr v

/-- A printable-parsable block. -/
def wfBlock : BlockStatement → Bool
  | BlockStatement.block ss => wfStmts ss

/-- Inside a block, every statement but the last must be an expression
statement (see `wfExpr`). -/
def wfStmts : List Statement → Bool
  | [] => true
  | [s] => wfStmt s
  | s :: rest =>
    (match s with
     | Statement.exprS _ => true
     | _ => false) && wfStmt s && wfStmts rest

end

/-- At top level `Program`'s printer concatenates statements with no
separator, so every statement but the last must print its own trailing
`;`: it must be a `let` or a `return` statement. -/
def wfTopStmts : List Statement → Bool
  | [] => true
  | [s] => wfStmt s
  | s :: rest =>
    (match s with
     | Statement.exprS _ => false
     | _ => true) && wfStmt s && wfTopStmts rest

/-- A program in the printed fragment that round-trips. -/
def wfProgram (p : Program) : Bool :=
  wfTopStmts p.statements

/-- A parser-reachable program whose printed text does not re-parse:
`if (true) { let x = 1; 2 }`.  Its block prints as `{let x = 1;; 2}` —
the `let` statement prints its own `;` and the block join adds another. -/
def roundtripBreaker : Program :=
  ⟨[Statement.exprS
    (Expression.ifExpression (Expression.boolean true)
      (BlockStatement.block
        [Statement.letS "x" (Expression.integerLiteral 1),
         Statement.exprS (Expression.integerLiteral 2)])
      none)]⟩

/-- C8 as stated is false: the program text `if (true) { let x = 1; 2 }`
parses to `roundtripBreaker`, but printing that AST yields
`if (true) {let x = 1;; 2}` whose `;;` has no parse, so re-parsing the
printed text is a diagnostic list, not a structurally equal AST. -/
theorem C8_counterexample :
    parseProgram 40
        [Token.kwIf, Token.lparen, Token.kwTrue, Token.rparen, Token.lbrace,
         Token.kwLet, Token.ident "x", Token.assign, Token.int 1,
         Token.semicolon, Token.int 2, Token.rbrace] =
      Except.ok roundtripBreaker
    ∧ printProgram roundtripBreaker =
      [Token.kwIf, Token.lparen, Token.kwTrue, Token.rparen, Token.lbrace,
       Token.kwLet, Token.ident "x", Token.assign, Token.int 1,
       Token.semicolon, Token.semicolon, Token.int 2, Token.rbrace]
    ∧ parseProgram 40 (printProgram roundtripBreaker) =
      Except.error ["no prefix parse rule for token",
        "no prefix parse rule for token", "no prefix parse rule for token",
        "no prefix parse rule for token"]
    ∧ parseProgram 40 (printProgram roundtripBreaker) ≠
      Except.ok roundtripBreaker := by
  refine ⟨?_, ?_, ?_, ?_⟩
  · simp [roundtripBreaker, parseProgram, parseProgramAux, parseStatement,
      parseExpression, parsePrefixRule, parseInfixLoop, parseIf, parseBlock,
      skipSemicolon, precedence]
  · simp [roundtripBreaker, printProgram, printExpr, printBlock, printStmt,
      printStmtsJoined]
  · simp [roundtripBreaker, printProgram, printExpr, printBlock, printStmt,
      printStmtsJoined, parseProgram, parseProgramAux, parseStatement,
      parseExpression, parsePrefixRule, parseInfixLoop, parseIf, parseBlock,
      skipSemicolon, precedence]
  · intro hc
    have herr : parseProgram 40 (printProgram roundtripBreaker) =
        Except.error ["no prefix parse rule for token",
          "no prefix parse rule for token", "no prefix parse rule for token",
          "no prefix parse rule for token"] := by
      simp [roundtripBreaker, printProgram, printExpr, printBlock, printStmt,
        printStmtsJoined, parseProgram, parseProgramAux, parseStatement,
        parseExpression, parsePrefixRule, parseInfixLoop, parseIf, parseBlock,
        skipSemicolon, precedence]
    rw [hc] at herr
    exact absurd herr (by simp)

/-- `parsePrefixRule` answers `(e, rest)` on `ts` for every sufficient
fuel. -/
def PrefixComputes (ts : List Token) (e : Expression) (rest : List Token) : Prop :=
  ∃ F, ∀ fuel, F ≤ fuel → parsePrefixRule fuel ts = Except.ok (e, rest)

/-- `parseExpression` at `mp` answers `(e, rest)` on `ts` for every
sufficient fuel. -/
def ExprComputes (mp : Nat) (ts : List Token) (e : Expression)
    (rest : List Token) : Prop :=
  ∃ F, ∀ fuel, F ≤ fuel → parseExpression fuel mp ts = Except.ok (e, rest)

/-- `parseInfixLoop` at `mp` starting from `left` answers `(e, rest)`. -/
def LoopComputes (mp : Nat) (left : Expression) (ts : List Token)
    (e : Expression) (rest : List Token) : Prop :=
  ∃ F, ∀ fuel, F ≤ fuel → parseInfixLoop fuel mp left ts = Except.ok (e, rest)

/-- `parseCallArgs` answers `(args, rest)`. -/
def ArgsComputes (ts : List Token) (args : List Expression)
    (rest : List Token) : Prop :=
  ∃ F, ∀ fuel, F ≤ fuel → parseCallArgs fuel ts = Except.ok (args, rest)

/-- `parseMoreArgs` answers `(args, rest)`. -/
def MoreArgsComputes (ts : List Token) (args : List Expression)
    (rest : List Token) : Prop :=
  ∃ F, ∀ fuel, F ≤ fuel → parseMoreArgs fuel ts = Except.ok (args, rest)

/-- `parseStatement` answers `(s, rest)`. -/
def StmtComputes (ts : List Token) (s : Statement) (rest : List Token) : Prop :=
  ∃ F, ∀ fuel, F ≤ fuel → parseStatement fuel ts = Except.ok (s, rest)

/-- `parseBlock` answers `(b, rest)`. -/
def BlockComputes (ts : List Token) (b : BlockStatement) (rest : List Token) : Prop :=
  ∃ F, ∀ fuel, F ≤ fuel → parseBlock fuel ts = Except.ok (b, rest)

/-- `parseProgramAux` with no recorded error and accumulator `acc`
answers the program `p`. -/
def ProgComputes (ts : List Token) (acc : List Statement) (p : Program) : Prop :=
  ∃ F, ∀ fuel, F ≤ fuel → parseProgramAux fuel ts [] acc = Except.ok p

/-- The infix loop at `mp` stops on `ts`: empty, or a head of no higher
precedence. -/
def noCont (mp : Nat) (ts : List Token) : Prop :=
  match ts with
  | [] => True
  | t :: _ => precedence t ≤ mp

/-- The tokens that can begin a printed expression. -/
def startsExpr : Token → Bool
  | Token.int _ => true
  | Token.ident _ => true
  | Token.kwTrue => true
  | Token.kwFalse => true
  | Token.lparen => true
  | Token.kwIf => true
  | Token.kwFn => true
  | _ => false

/-- The tokens that can begin a printed statement. -/
def startsStmt : Token → Bool
  | Token.kwLet => true
  | Token.kwReturn => true
  | t => startsExpr t

/-- Whether an expression is a call. -/
def isCallE : Expression → Bool
  | Expression.callExpression _ _ => true
  | _ => false

/-- The head of a call spine: the function below all call suffixes. -/
def spineBase : Expression → Expression
  | Expression.callExpression f _ => spineBase f
  | e => e

/-- The printed call suffixes of a call spine. -/
def spineSuffix : Expression → List Token
  | Expression.callExpression f args =>
    spineSuffix f ++ Token.lparen :: (printArgsTokens args ++ [Token.rparen])
  | _ => []

/-- Every printed expression begins with an expression-starting token. -/
theorem printExpr_starts : ∀ e : Expression,
    ∃ t ts', printExpr e = t :: ts' ∧ startsExpr t = true
  | Expression.integerLiteral n => ⟨Token.int n, [], rfl, rfl⟩
  | Expression.identifier s => ⟨Token.ident s, [], rfl, rfl⟩
  | Expression.prefixExpr op r =>
    ⟨Token.lparen, opToken op :: (printExpr r ++ [Token.rparen]),
      by simp [printExpr], rfl⟩
  | Expression.infixExpr l r op =>
    ⟨Token.lparen, printExpr l ++ opToken op :: (printExpr r ++ [Token.rparen]),
      by simp [printExpr], rfl⟩
  | Expression.boolean true => ⟨Token.kwTrue, [], rfl, rfl⟩
  | Expression.boolean false => ⟨Token.kwFalse, [], rfl, rfl⟩
  | Expression.ifExpression c cons none =>
    ⟨Token.kwIf, Token.lparen :: (printExpr c ++ Token.rparen :: printBlock cons),
      by simp [printExpr], rfl⟩
  | Expression.ifExpression c cons (some b) =>
    ⟨Token.kwIf, Token.lparen ::
      (printExpr c ++ Token.rparen :: (printBlock cons ++ Token.kwElse :: printBlock b)),
      by simp [printExpr], rfl⟩
  | Expression.functionLiteral ps body =>
    ⟨Token.kwFn, Token.lparen :: (printParams ps ++ Token.rparen :: printBlock body),
      by simp [printExpr], rfl⟩
  | Expression.callExpression f args => by
    obtain ⟨t, ts', h, hs⟩ := printExpr_starts f
    exact ⟨t, ts' ++ Token.lparen :: (printArgsTokens args ++ [Token.rparen]),
      by simp [printExpr, h], hs⟩
termination_by e => sizeOf e

/-- Every printed statement begins with a statement-starting token. -/
theorem printStmt_starts : ∀ s : Statement,
    ∃ t ts', printStmt s = t :: ts' ∧ startsStmt t = true := by
  intro s
  match s with
  | Statement.letS n v =>
    exact ⟨Token.kwLet, Token.ident n :: Token.assign :: (printExpr v ++ [Token.semicolon]),
      by simp [printStmt], rfl⟩
  | Statement.returnS v =>
    exact ⟨Token.kwReturn, printExpr v ++ [Token.semicolon],
      by simp [printStmt], rfl⟩
  | Statement.exprS v =>
    obtain ⟨t, ts', h, hs⟩ := printExpr_starts v
    refine ⟨t, ts', by simp [printStmt, h], ?_⟩
    cases t <;> simp_all [startsStmt, startsExpr]

/-- A printed expression is the printed spine base followed by the call
suffixes. -/
theorem printExpr_spine : ∀ e : Expression,
    printExpr e = printExpr (spineBase e) ++ spineSuffix e
  | Expression.integerLiteral n => by simp [spineBase, spineSuffix]
  | Expression.identifier s => by simp [spineBase, spineSuffix]
  | Expression.prefixExpr op r => by simp [spineBase, spineSuffix]
  | Expression.infixExpr l r op => by simp [spineBase, spineSuffix]
  | Expression.boolean b => by simp [spineBase, spineSuffix]
  | Expression.ifExpression c cons alt => by simp [spineBase, spineSuffix]
  | Expression.functionLiteral ps body => by simp [spineBase, spineSuffix]
  | Expression.callExpression f args => by
    rw [spineBase, spineSuffix, ← List.append_assoc, ← printExpr_spine f]
    simp [printExpr]

/-- The spine base of a well-formed expression is well-formed. -/
theorem wf_spineBase : ∀ e : Expression, wfExpr e = true →
    wfExpr (spineBase e) = true
  | Expression.integerLiteral n, h => h
  | Expression.identifier s, h => h
  | Expression.prefixExpr op r, h => h
  | Expression.infixExpr l r op, h => h
  | Expression.boolean b, h => h
  | Expression.ifExpression c cons alt, h => h
  | Expression.functionLiteral ps body, h => h
  | Expression.callExpression f args, h => by
    rw [spineBase]
    exact wf_spineBase f (by simp [wfExpr] at h; exact h.1)

/-- The spine base is never itself a call. -/
theorem spineBase_not_call : ∀ e : Expression, isCallE (spineBase e) = false
  | Expression.integerLiteral n => rfl
  | Expression.identifier s => rfl
  | Expression.prefixExpr op r => rfl
  | Expression.infixExpr l r op => rfl
  | Expression.boolean b => rfl
  | Expression.ifExpression c cons alt => rfl
  | Expression.functionLiteral ps body => rfl
  | Expression.callExpression f args => by
    rw [spineBase]; exact spineBase_not_call f

/-- The spine base is no larger than the expression. -/
theorem sizeOf_spineBase_le : ∀ e : Expression, sizeOf (spineBase e) ≤ sizeOf e
  | Expression.integerLiteral n => Nat.le_refl _
  | Expression.identifier s => Nat.le_refl _
  | Expression.prefixExpr op r => Nat.le_refl _
  | Expression.infixExpr l r op => Nat.le_refl _
  | Expression.boolean b => Nat.le_refl _
  | Expression.ifExpression c cons alt => Nat.le_refl _
  | Expression.functionLiteral ps body => Nat.le_refl _
  | Expression.callExpression f args => by
    rw [spineBase]
    have := sizeOf_spineBase_le f
    have hlt : sizeOf f < sizeOf (Expression.callExpression f args) := by
      simp
      omega
    omega

/-- The infix loop stops at once when the next token binds no tighter. -/
theorem loop_stop {mp : Nat} {left : Expression} {rest : List Token}
    (h : noCont mp rest) : LoopComputes mp left rest left rest := by
  refine ⟨1, ?_⟩
  intro fuel hf
  obtain ⟨g, rfl⟩ : ∃ g, fuel = g + 1 := ⟨fuel - 1, by omega⟩
  cases rest with
  | nil => simp [parseInfixLoop]
  | cons t ts =>
    have hle : precedence t ≤ mp := h
    simp [parseInfixLoop, Nat.not_lt.mpr hle]

/-- An expression parse is its prefix rule followed by the infix loop. -/
theorem expr_intro {mp : Nat} {ts mid rest : List Token} {e₀ e : Expression}
    (h₁ : PrefixComputes ts e₀ mid) (h₂ : LoopComputes mp e₀ mid e rest) :
    ExprComputes mp ts e rest := by
  rcases h₁ with ⟨F₁, h₁⟩
  rcases h₂ with ⟨F₂, h₂⟩
  refine ⟨max F₁ F₂ + 1, ?_⟩
  intro fuel hf
  obtain ⟨g, rfl⟩ : ∃ g, fuel = g + 1 := ⟨fuel - 1, by omega⟩
  simp only [parseExpression, h₁ g (by omega), h₂ g (by omega)]

/-- One call suffix advances the infix loop from `left` to
`left(args)`. -/
theorem loop_call {mp : Nat} {left e : Expression} {ts mid rest : List Token}
    {args : List Expression} (hmp : mp ≤ 6)
    (h₁ : ArgsComputes ts args mid)
    (h₂ : LoopComputes mp (Expression.callExpression left args) mid e rest) :
    LoopComputes mp left (Token.lparen :: ts) e rest := by
  rcases h₁ with ⟨F₁, h₁⟩
  rcases h₂ with ⟨F₂, h₂⟩
  refine ⟨max F₁ F₂ + 1, ?_⟩
  intro fuel hf
  obtain ⟨g, rfl⟩ : ∃ g, fuel = g + 1 := ⟨fuel - 1, by omega⟩
  have hlt : mp < precedence Token.lparen := by simp [precedence]; omega
  simp only [parseInfixLoop, if_pos hlt, h₁ g (by omega), h₂ g (by omega)]

/-- One infix operator advances the loop from `left` to
`left ⟨op⟩ right`. -/
theorem loop_op {mp : Nat} {left r e : Expression} {t : Token}
    {ts mid rest : List Token}
    (hop : t = Token.plus ∨ t = Token.minus ∨ t = Token.asterisk ∨
      t = Token.slash ∨ t = Token.lt ∨ t = Token.gt ∨ t = Token.eq ∨
      t = Token.notEq)
    (hprec : mp < precedence t)
    (h₁ : ExprComputes (precedence t) ts r mid)
    (h₂ : LoopComputes mp (Expression.infixExpr left r (tokenOpString t)) mid e rest) :
    LoopComputes mp left (t :: ts) e rest := by
  rcases h₁ with ⟨F₁, h₁⟩
  rcases h₂ with ⟨F₂, h₂⟩
  refine ⟨max F₁ F₂ + 1, ?_⟩
  intro fuel hf
  obtain ⟨g, rfl⟩ : ∃ g, fuel = g + 1 := ⟨fuel - 1, by omega⟩
  rcases hop with rfl | rfl | rfl | rfl | rfl | rfl | rfl | rfl <;>
    simp only [parseInfixLoop, if_pos hprec, h₁ g (by omega), h₂ g (by omega)]

/-- Prefix rule: an integer literal. -/
theorem p_int (n : Int) (rest : List Token) :
    PrefixComputes (Token.int n :: rest) (Expression.integerLiteral n) rest := by
  refine ⟨1, ?_⟩
  intro fuel hf
  obtain ⟨g, rfl⟩ : ∃ g, fuel = g + 1 := ⟨fuel - 1, by omega⟩
  simp [parsePrefixRule]

/-- Prefix rule: an identifier. -/
theorem p_ident (s : String) (rest : List Token) :
    PrefixComputes (Token.ident s :: rest) (Expression.identifier s) rest := by
  refine ⟨1, ?_⟩
  intro fuel hf
  obtain ⟨g, rfl⟩ : ∃ g, fuel = g + 1 := ⟨fuel - 1, by omega⟩
  simp [parsePrefixRule]

/-- Prefix rule: a boolean literal. -/
theorem p_bool (b : Bool) (rest : List Token) :
    PrefixComputes ((if b then Token.kwTrue else Token.kwFalse) :: rest)
      (Expression.boolean b) rest := by
  refine ⟨1, ?_⟩
  intro fuel hf
  obtain ⟨g, rfl⟩ : ∃ g, fuel = g + 1 := ⟨fuel - 1, by omega⟩
  cases b <;> simp [parsePrefixRule]

/-- Prefix rule: `!` then its operand at the prefix precedence. -/
theorem p_bang {ts rest : List Token} {r : Expression}
    (h : ExprComputes prefixPrecedence ts r rest) :
    PrefixComputes (Token.bang :: ts) (Expression.prefixExpr "!" r) rest := by
  rcases h with ⟨F, h⟩
  refine ⟨F + 1, ?_⟩
  intro fuel hf
  obtain ⟨g, rfl⟩ : ∃ g, fuel = g + 1 := ⟨fuel - 1, by omega⟩
  simp only [parsePrefixRule, h g (by omega)]

/-- Prefix rule: `-` then its operand at the prefix precedence. -/
theorem p_minus {ts rest : List Token} {r : Expression}
    (h : ExprComputes prefixPrecedence ts r rest) :
    PrefixComputes (Token.minus :: ts) (Expression.prefixExpr "-" r) rest := by
  rcases h with ⟨F, h⟩
  refine ⟨F + 1, ?_⟩
  intro fuel hf
  obtain ⟨g, rfl⟩ : ∃ g, fuel = g + 1 := ⟨fuel - 1, by omega⟩
  simp only [parsePrefixRule, h g (by omega)]

/-- Prefix rule: a grouped expression, consuming the closing `)`. -/
theorem p_group {ts rest : List Token} {e : Expression}
    (h : ExprComputes 0 ts e (Token.rparen :: rest)) :
    PrefixComputes (Token.lparen :: ts) e rest := by
  rcases h with ⟨F, h⟩
  refine ⟨F + 1, ?_⟩
  intro fuel hf
  obtain ⟨g, rfl⟩ : ∃ g, fuel = g + 1 := ⟨fuel - 1, by omega⟩
  simp only [parsePrefixRule, h g (by omega)]

/-- Prefix rule: `if` without `else`; the following token must not be an
`else` keyword (the printer never emits one right after such an `if`). -/
theorem p_if_none {cts bts rest : List Token} {c : Expression}
    {cons : BlockStatement}
    (h₁ : ExprComputes 0 cts c (Token.rparen :: Token.lbrace :: bts))
    (h₂ : BlockComputes bts cons rest)
    (hne : rest.head? ≠ some Token.kwElse) :
    PrefixComputes (Token.kwIf :: Token.lparen :: cts)
      (Expression.ifExpression c cons none) rest := by
  rcases h₁ with ⟨F₁, h₁⟩
  rcases h₂ with ⟨F₂, h₂⟩
  refine ⟨max F₁ F₂ + 2, ?_⟩
  intro fuel hf
  obtain ⟨g, rfl⟩ : ∃ g, fuel = g + 2 := ⟨fuel - 2, by omega⟩
  simp only [parsePrefixRule, parseIf, h₁ g (by omega), h₂ g (by omega)]
  cases rest with
  | nil => simp
  | cons t rest' =>
    cases t <;> simp_all

/-- Prefix rule: `if` with an `else` block. -/
theorem p_if_some {cts bts ets rest : List Token} {c : Expression}
    {cons alt : BlockStatement}
    (h₁ : ExprComputes 0 cts c (Token.rparen :: Token.lbrace :: bts))
    (h₂ : BlockComputes bts cons (Token.kwElse :: Token.lbrace :: ets))
    (h₃ : BlockComputes ets alt rest) :
    PrefixComputes (Token.kwIf :: Token.lparen :: cts)
      (Expression.ifExpression c cons (some alt)) rest := by
  rcases h₁ with ⟨F₁, h₁⟩
  rcases h₂ with ⟨F₂, h₂⟩
  rcases h₃ with ⟨F₃, h₃⟩
  refine ⟨max F₁ (max F₂ F₃) + 2, ?_⟩
  intro fuel hf
  obtain ⟨g, rfl⟩ : ∃ g, fuel = g + 2 := ⟨fuel - 2, by omega⟩
  simp only [parsePrefixRule, parseIf, h₁ g (by omega),
    h₂ g (by omega), h₃ g (by omega)]

/-- Prefix rule: a parameterless function literal. -/
theorem p_fn {bts rest : List Token} {body : BlockStatement}
    (h : BlockComputes bts body rest) :
    PrefixComputes (Token.kwFn :: Token.lparen :: Token.rparen :: Token.lbrace :: bts)
      (Expression.functionLiteral [] body) rest := by
  rcases h with ⟨F, h⟩
  refine ⟨F + 2, ?_⟩
  intro fuel hf
  obtain ⟨g, rfl⟩ : ∃ g, fuel = g + 2 := ⟨fuel - 2, by omega⟩
  simp only [parsePrefixRule, parseFn, parseParams, h g (by omega)]

/-- An empty call-argument list. -/
theorem args_nil (rest : List Token) :
    ArgsComputes (Token.rparen :: rest) [] rest := by
  refine ⟨1, ?_⟩
  intro fuel hf
  obtain ⟨g, rfl⟩ : ∃ g, fuel = g + 1 := ⟨fuel - 1, by omega⟩
  simp [parseCallArgs]

/-- The end of a call-argument tail. -/
theorem more_nil (rest : List Token) :
    MoreArgsComputes (Token.rparen :: rest) [] rest := by
  refine ⟨1, ?_⟩
  intro fuel hf
  obtain ⟨g, rfl⟩ : ∃ g, fuel = g + 1 := ⟨fuel - 1, by omega⟩
  simp [parseMoreArgs]

/-- A comma continues the call-argument tail. -/
theorem more_cons {ts mid rest : List Token} {a : Expression}
    {more : List Expression}
    (h₁ : ExprComputes 0 ts a mid) (h₂ : MoreArgsComputes mid more rest) :
    MoreArgsComputes (Token.comma :: ts) (a :: more) rest := by
  rcases h₁ with ⟨F₁, h₁⟩
  rcases h₂ with ⟨F₂, h₂⟩
  refine ⟨max F₁ F₂ + 1, ?_⟩
  intro fuel hf
  obtain ⟨g, rfl⟩ : ∃ g, fuel = g + 1 := ⟨fuel - 1, by omega⟩
  simp only [parseMoreArgs, h₁ g (by omega), h₂ g (by omega)]

/-- A first argument (beginning with an expression-starting token, never
`)`) then the comma tail. -/
theorem args_cons {t : Token} {ts mid rest : List Token} {a : Expression}
    {more : List Expression} (ht : startsExpr t = true)
    (h₁ : ExprComputes 0 (t :: ts) a mid)
    (h₂ : MoreArgsComputes mid more rest) :
    ArgsComputes (t :: ts) (a :: more) rest := by
  rcases h₁ with ⟨F₁, h₁⟩
  rcases h₂ with ⟨F₂, h₂⟩
  refine ⟨max F₁ F₂ + 1, ?_⟩
  intro fuel hf
  obtain ⟨g, rfl⟩ : ∃ g, fuel = g + 1 := ⟨fuel - 1, by omega⟩
  cases t <;> simp_all [startsExpr] <;>
    simp only [parseCallArgs, h₁ g (by omega), h₂ g (by omega)]

/-- Statement rule: `let <identifier> = <expression>;`. -/
theorem stmt_let {vts rest : List Token} {n : String} {v : Expression}
    (h : ExprComputes 0 vts v (Token.semicolon :: rest)) :
    StmtComputes (Token.kwLet :: Token.ident n :: Token.assign :: vts)
      (Statement.letS n v) rest := by
  rcases h with ⟨F, h⟩
  refine ⟨F + 1, ?_⟩
  intro fuel hf
  obtain ⟨g, rfl⟩ : ∃ g, fuel = g + 1 := ⟨fuel - 1, by omega⟩
  simp only [parseStatement, h g (by omega), skipSemicolon]

/-- Statement rule: `return <expression>;`. -/
theorem stmt_return {vts rest : List Token} {v : Expression}
    (h : ExprComputes 0 vts v (Token.semicolon :: rest)) :
    StmtComputes (Token.kwReturn :: vts) (Statement.returnS v) rest := by
  rcases h with ⟨F, h⟩
  refine ⟨F + 1, ?_⟩
  intro fuel hf
  obtain ⟨g, rfl⟩ : ∃ g, fuel = g + 1 := ⟨fuel - 1, by omega⟩
  simp only [parseStatement, h g (by omega), skipSemicolon]

/-- Statement rule: a bare expression statement; an optional trailing `;`
is consumed from what follows. -/
theorem stmt_expr {t : Token} {ts mid : List Token} {e : Expression}
    (ht : startsExpr t = true) (h : ExprComputes 0 (t :: ts) e mid) :
    StmtComputes (t :: ts) (Statement.exprS e) (skipSemicolon mid) := by
  rcases h with ⟨F, h⟩
  refine ⟨F + 1, ?_⟩
  intro fuel hf
  obtain ⟨g, rfl⟩ : ∃ g, fuel = g + 1 := ⟨fuel - 1, by omega⟩
  cases t <;> simp_all [startsExpr] <;>
    simp only [parseStatement, h g (by omega)]

/-- An empty block body. -/
theorem block_nil (rest : List Token) :
    BlockComputes (Token.rbrace :: rest) (BlockStatement.block []) rest := by
  refine ⟨1, ?_⟩
  intro fuel hf
  obtain ⟨g, rfl⟩ : ∃ g, fuel = g + 1 := ⟨fuel - 1, by omega⟩
  simp [parseBlock]

/-- A statement (beginning with a statement-starting token, never `}`)
then the remainder of the block. -/
theorem block_cons {t : Token} {ts mid rest : List Token} {s : Statement}
    {ss : List Statement} (ht : startsStmt t = true)
    (h₁ : StmtComputes (t :: ts) s mid)
    (h₂ : BlockComputes mid (BlockStatement.block ss) rest) :
    BlockComputes (t :: ts) (BlockStatement.block (s :: ss)) rest := by
  rcases h₁ with ⟨F₁, h₁⟩
  rcases h₂ with ⟨F₂, h₂⟩
  refine ⟨max F₁ F₂ + 1, ?_⟩
  intro fuel hf
  obtain ⟨g, rfl⟩ : ∃ g, fuel = g + 1 := ⟨fuel - 1, by omega⟩
  cases t <;> simp_all [startsStmt, startsExpr] <;>
    simp only [parseBlock, h₁ g (by omega), h₂ g (by omega)]

/-- End of input with no recorded diagnostic: the accumulated program. -/
theorem prog_nil (acc : List Statement) :
    ProgComputes [] acc ⟨acc.reverse⟩ := by
  refine ⟨1, ?_⟩
  intro fuel hf
  obtain ⟨g, rfl⟩ : ∃ g, fuel = g + 1 := ⟨fuel - 1, by omega⟩
  simp [parseProgramAux]

/-- A parsed statement advances the program loop. -/
theorem prog_cons {t : Token} {ts mid : List Token} {s : Statement}
    {acc : List Statement} {p : Program}
    (h₁ : StmtComputes (t :: ts) s mid)
    (h₂ : ProgComputes mid (s :: acc) p) :
    ProgComputes (t :: ts) acc p := by
  rcases h₁ with ⟨F₁, h₁⟩
  rcases h₂ with ⟨F₂, h₂⟩
  refine ⟨max F₁ F₂ + 1, ?_⟩
  intro fuel hf
  obtain ⟨g, rfl⟩ : ∃ g, fuel = g + 1 := ⟨fuel - 1, by omega⟩
  simp only [parseProgramAux, h₁ g (by omega), h₂ g (by omega)]

/-- The comma-prefixed rendering of the tail of an argument list. -/
def commaSep : List Expression → List Token
  | [] => []
  | a :: more => Token.comma :: (printExpr a ++ commaSep more)

/-- A printed argument list is its first argument then the comma tail. -/
theorem printArgs_commaSep : ∀ (a : Expression) (more : List Expression),
    printArgsTokens (a :: more) = printExpr a ++ commaSep more
  | _, [] => by simp [printArgsTokens, commaSep]
  | a, b :: more => by
    simp only [printArgsTokens, printArgs_commaSep b more, commaSep]

/-- A spine suffix is empty or begins with `(`. -/
theorem spineSuffix_shape : ∀ e : Expression,
    spineSuffix e = [] ∨ ∃ ts', spineSuffix e = Token.lparen :: ts'
  | Expression.integerLiteral _ => Or.inl rfl
  | Expression.identifier _ => Or.inl rfl
  | Expression.prefixExpr _ _ => Or.inl rfl
  | Expression.infixExpr _ _ _ => Or.inl rfl
  | Expression.boolean _ => Or.inl rfl
  | Expression.ifExpression _ _ _ => Or.inl rfl
  | Expression.functionLiteral _ _ => Or.inl rfl
  | Expression.callExpression f args => by
    rcases spineSuffix_shape f with h | ⟨ts', h⟩
    · right
      rw [spineSuffix, h]
      exact ⟨printArgsTokens args ++ [Token.rparen], rfl⟩
    · right
      rw [spineSuffix, h]
      exact ⟨ts' ++ Token.lparen :: (printArgsTokens args ++ [Token.rparen]), rfl⟩

/-- The comma tail followed by `)` stops the infix loop at any
precedence. -/
theorem noCont_commaSep (mp : Nat) (more : List Expression) (rest : List Token) :
    noCont mp (commaSep more ++ Token.rparen :: rest) := by
  cases more with
  | nil => simp [commaSep, noCont, precedence]
  | cons a more' => simp [commaSep, noCont, precedence]

/-- The comma tail followed by `)` never begins with `else`. -/
theorem head_commaSep_ne_else (more : List Expression) (rest : List Token) :
    (commaSep more ++ Token.rparen :: rest).head? ≠ some Token.kwElse := by
  cases more with
  | nil => simp [commaSep]
  | cons a more' => simp [commaSep]

mutual

/-- A well-formed non-call expression's printed tokens are consumed
exactly by the prefix rule, yielding the expression back. -/
theorem prefixRT : ∀ e : Expression, wfExpr e = true → isCallE e = false →
    ∀ rest : List Token, rest.head? ≠ some Token.kwElse →
    PrefixComputes (printExpr e ++ rest) e rest
  | Expression.integerLiteral n, _, _, rest, _ => by
    simpa [printExpr] using p_int n rest
  | Expression.identifier s, _, _, rest, _ => by
    simpa [printExpr] using p_ident s rest
  | Expression.boolean true, _, _, rest, _ => by
    simpa [printExpr] using p_bool true rest
  | Expression.boolean false, _, _, rest, _ => by
    simpa [printExpr] using p_bool false rest
  | Expression.prefixExpr op r, hwf, _, rest, _ => by
    simp only [wfExpr, Bool.and_eq_true, Bool.or_eq_true, decide_eq_true_eq] at hwf
    obtain ⟨hop, hr⟩ := hwf
    have hER := exprRT r hr prefixPrecedence (by simp [prefixPrecedence])
      (Token.rparen :: rest) (by simp [noCont, precedence]) (by simp)
    rcases hop with rfl | rfl
    · have hE : ExprComputes 0
          (Token.bang :: (printExpr r ++ Token.rparen :: rest))
          (Expression.prefixExpr "!" r) (Token.rparen :: rest) :=
        expr_intro (p_bang hER) (loop_stop (by simp [noCont, precedence]))
      simpa [printExpr, opToken] using p_group hE
    · have hE : ExprComputes 0
          (Token.minus :: (printExpr r ++ Token.rparen :: rest))
          (Expression.prefixExpr "-" r) (Token.rparen :: rest) :=
        expr_intro (p_minus hER) (loop_stop (by simp [noCont, precedence]))
      simpa [printExpr, opToken] using p_group hE
  | Expression.infixExpr l r op, hwf, _, rest, _ => by
    simp only [wfExpr, Bool.and_eq_true, Bool.or_eq_true, decide_eq_true_eq] at hwf
    obtain ⟨⟨hop, hl⟩, hr⟩ := hwf
    have h8 : (opToken op = Token.plus ∨ opToken op = Token.minus ∨
        opToken op = Token.asterisk ∨ opToken op = Token.slash ∨
        opToken op = Token.lt ∨ opToken op = Token.gt ∨
        opToken op = Token.eq ∨ opToken op = Token.notEq) ∧
        tokenOpString (opToken op) = op ∧ 0 < precedence (opToken op) ∧
        precedence (opToken op) ≤ 6 ∧ opToken op ≠ Token.kwElse := by
      rcases hop with (((((((rfl | rfl) | rfl) | rfl) | rfl) | rfl) | rfl) | rfl) <;>
        simp [opToken, tokenOpString, precedence]
    obtain ⟨ht8, htos, htpos, htle, htne⟩ := h8
    have hR := exprRT r hr (precedence (opToken op)) htle (Token.rparen :: rest)
      (by simp [noCont, precedence]) (by simp)
    have hstop : LoopComputes 0 (Expression.infixExpr l r op)
        (Token.rparen :: rest) (Expression.infixExpr l r op)
        (Token.rparen :: rest) := loop_stop (by simp [noCont, precedence])
    have hloop1 : LoopComputes 0 l
        (opToken op :: (printExpr r ++ Token.rparen :: rest))
        (Expression.infixExpr l r op) (Token.rparen :: rest) := by
      refine loop_op ht8 htpos hR ?_
      rw [htos]
      exact hstop
    have hspine := loopRT l hl 0 (by omega) _ _ _ hloop1
    have hmid : (spineSuffix l ++
        (opToken op :: (printExpr r ++ Token.rparen :: rest))).head? ≠
        some Token.kwElse := by
      rcases spineSuffix_shape l with h | ⟨ts', h⟩
      · rw [h, List.nil_append]
        simpa using htne
      · rw [h]
        simp
    have hbase := prefixRT (spineBase l) (wf_spineBase l hl)
      (spineBase_not_call l) _ hmid
    have hE : ExprComputes 0
        (printExpr l ++ (opToken op :: (printExpr r ++ Token.rparen :: rest)))
        (Expression.infixExpr l r op) (Token.rparen :: rest) := by
      rw [printExpr_spine l, List.append_assoc]
      exact expr_intro hbase hspine
    simpa [printExpr] using p_group hE
  | Expression.ifExpression c (BlockStatement.block ss) none, hwf, _, rest, hne => by
    simp only [wfExpr, Bool.and_eq_true] at hwf
    obtain ⟨⟨hc, hcons⟩, -⟩ := hwf
    have hB := stmtsRT ss (by simpa [wfBlock] using hcons) rest
    have hC := exprRT c hc 0 (by omega)
      (Token.rparen :: Token.lbrace :: (printStmtsJoined ss ++ Token.rbrace :: rest))
      (by simp [noCont, precedence]) (by simp)
    simpa [printExpr, printBlock] using p_if_none hC hB hne
  | Expression.ifExpression c (BlockStatement.block ss)
      (some (BlockStatement.block ss₂)), hwf, _, rest, _ => by
    simp only [wfExpr, Bool.and_eq_true] at hwf
    obtain ⟨⟨hc, hcons⟩, halt⟩ := hwf
    have hB2 := stmtsRT ss₂ (by simpa [wfBlock] using halt) rest
    have hB := stmtsRT ss (by simpa [wfBlock] using hcons)
      (Token.kwElse :: Token.lbrace :: (printStmtsJoined ss₂ ++ Token.rbrace :: rest))
    have hC := exprRT c hc 0 (by omega)
      (Token.rparen :: Token.lbrace :: (printStmtsJoined ss ++ Token.rbrace ::
        (Token.kwElse :: Token.lbrace :: (printStmtsJoined ss₂ ++ Token.rbrace :: rest))))
      (by simp [noCont, precedence]) (by simp)
    simpa [printExpr, printBlock] using p_if_some hC hB hB2
  | Expression.functionLiteral ps (BlockStatement.block ss), hwf, _, rest, _ => by
    simp only [wfExpr, Bool.and_eq_true, List.isEmpty_iff] at hwf
    obtain ⟨hps, hbody⟩ := hwf
    subst hps
    have hB := stmtsRT ss (by simpa [wfBlock] using hbody) rest
    simpa [printExpr, printBlock, printParams] using p_fn hB
  | Expression.callExpression f args, _, hcall, _, _ => by
    simp [isCallE] at hcall
termination_by e hwf hcall rest hne => 3 * sizeOf e
decreasing_by
  all_goals simp_wf
  all_goals try omega
  all_goals { have h := sizeOf_spineBase_le l; omega }

/-- A well-formed expression's printed tokens parse back to it at any
precedence level up to the prefix level, when what follows neither
continues the expression nor begins with `else`. -/
theorem exprRT (e : Expression) (hwf : wfExpr e = true) (mp : Nat)
    (hmp : mp ≤ 6) (rest : List Token) (hnc : noCont mp rest)
    (hne : rest.head? ≠ some Token.kwElse) :
    ExprComputes mp (printExpr e ++ rest) e rest := by
  have hmid : (spineSuffix e ++ rest).head? ≠ some Token.kwElse := by
    rcases spineSuffix_shape e with h | ⟨ts', h⟩
    · rw [h, List.nil_append]
      exact hne
    · rw [h]
      simp
  have hbase := prefixRT (spineBase e) (wf_spineBase e hwf)
    (spineBase_not_call e) (spineSuffix e ++ rest) hmid
  have hloop := loopRT e hwf mp hmp rest e rest (loop_stop hnc)
  have hres := expr_intro hbase hloop
  rw [printExpr_spine e, List.append_assoc]
  exact hres
termination_by 3 * sizeOf e + 2
decreasing_by
  all_goals simp_wf
  all_goals try omega
  all_goals { have h := sizeOf_spineBase_le e; omega }

/-- The infix loop started at a spine base with the printed call
suffixes behaves as the loop started at the full call expression. -/
theorem loopRT : ∀ e : Expression, wfExpr e = true → ∀ mp : Nat, mp ≤ 6 →
    ∀ (ts : List Token) (e' : Expression) (rest : List Token),
    LoopComputes mp e ts e' rest →
    LoopComputes mp (spineBase e) (spineSuffix e ++ ts) e' rest
  | Expression.integerLiteral n, _, mp, _, ts, e', rest, h => by
    simpa [spineBase, spineSuffix] using h
  | Expression.identifier s, _, mp, _, ts, e', rest, h => by
    simpa [spineBase, spineSuffix] using h
  | Expression.prefixExpr o r, _, mp, _, ts, e', rest, h => by
    simpa [spineBase, spineSuffix] using h
  | Expression.infixExpr l r o, _, mp, _, ts, e', rest, h => by
    simpa [spineBase, spineSuffix] using h
  | Expression.boolean b, _, mp, _, ts, e', rest, h => by
    simpa [spineBase, spineSuffix] using h
  | Expression.ifExpression c cons alt, _, mp, _, ts, e', rest, h => by
    simpa [spineBase, spineSuffix] using h
  | Expression.functionLiteral ps body, _, mp, _, ts, e', rest, h => by
    simpa [spineBase, spineSuffix] using h
  | Expression.callExpression f args, hwf, mp, hmp, ts, e', rest, h => by
    simp only [wfExpr, Bool.and_eq_true] at hwf
    obtain ⟨hf, hargs⟩ := hwf
    have hA := argsRT args hargs ts
    have h1 : LoopComputes mp f
        (Token.lparen :: (printArgsTokens args ++ Token.rparen :: ts)) e' rest :=
      loop_call hmp hA h
    have h2 := loopRT f hf mp hmp _ e' rest h1
    simpa [spineBase, spineSuffix] using h2
termination_by e hwf mp hmp ts e2 rest h => 3 * sizeOf e + 1

/-- A printed argument list followed by `)` parses back to the list. -/
theorem argsRT : ∀ args : List Expression, wfExprList args = true →
    ∀ rest : List Token,
    ArgsComputes (printArgsTokens args ++ Token.rparen :: rest) args rest
  | [], _, rest => by
    simpa [printArgsTokens] using args_nil rest
  | a :: more, hwf, rest => by
    simp only [wfExprList, Bool.and_eq_true] at hwf
    obtain ⟨ha, hmore⟩ := hwf
    obtain ⟨t, ts', hpa, hts⟩ := printExpr_starts a
    have hE := exprRT a ha 0 (by omega) (commaSep more ++ Token.rparen :: rest)
      (noCont_commaSep 0 more rest) (head_commaSep_ne_else more rest)
    have hM := moreArgsRT more hmore rest
    rw [printArgs_commaSep a more, List.append_assoc, hpa, List.cons_append]
    refine args_cons hts ?_ hM
    rw [hpa] at hE
    simpa using hE
termination_by args hwf rest => 3 * sizeOf args

/-- A printed comma tail followed by `)` parses back to the list. -/
theorem moreArgsRT : ∀ args : List Expression, wfExprList args = true →
    ∀ rest : List Token,
    MoreArgsComputes (commaSep args ++ Token.rparen :: rest) args rest
  | [], _, rest => by
    simpa [commaSep] using more_nil rest
  | a :: more, hwf, rest => by
    simp only [wfExprList, Bool.and_eq_true] at hwf
    obtain ⟨ha, hmore⟩ := hwf
    have hE := exprRT a ha 0 (by omega) (commaSep more ++ Token.rparen :: rest)
      (noCont_commaSep 0 more rest) (head_commaSep_ne_else more rest)
    have hM := moreArgsRT more hmore rest
    simpa [commaSep] using more_cons hE hM
termination_by args hwf rest => 3 * sizeOf args

/-- A printed statement parses back to itself.  An expression statement
needs what follows to stop the expression; the parser then consumes one
leading `;` of what follows. -/
theorem stmtRT : ∀ s : Statement, wfStmt s = true → ∀ rest : List Token,
    (match s with
     | Statement.exprS _ => noCont 0 rest ∧ rest.head? ≠ some Token.kwElse
     | _ => True) →
    StmtComputes (printStmt s ++ rest) s
      (match s with
       | Statement.exprS _ => skipSemicolon rest
       | _ => rest)
  | Statement.letS n v, hwf, rest, _ => by
    have hv : wfExpr v = true := by simpa [wfStmt] using hwf
    have hE := exprRT v hv 0 (by omega) (Token.semicolon :: rest)
      (by simp [noCont, precedence]) (by simp)
    simpa [printStmt] using stmt_let hE
  | Statement.returnS v, hwf, rest, _ => by
    have hv : wfExpr v = true := by simpa [wfStmt] using hwf
    have hE := exprRT v hv 0 (by omega) (Token.semicolon :: rest)
      (by simp [noCont, precedence]) (by simp)
    simpa [printStmt] using stmt_return hE
  | Statement.exprS v, hwf, rest, hcond => by
    obtain ⟨hnc, hne⟩ := hcond
    have hv : wfExpr v = true := by simpa [wfStmt] using hwf
    obtain ⟨t, ts', hpv, hts⟩ := printExpr_starts v
    have hE := exprRT v hv 0 (by omega) rest hnc hne
    rw [hpv] at hE
    have := stmt_expr hts (by simpa using hE)
    simp only [printStmt, hpv, List.cons_append]
    simpa using this
termination_by s hwf rest hcond => 3 * sizeOf s

/-- A block's printed statements followed by `}` parse back to the
block. -/
theorem stmtsRT : ∀ ss : List Statement, wfStmts ss = true →
    ∀ rest : List Token,
    BlockComputes (printStmtsJoined ss ++ Token.rbrace :: rest)
      (BlockStatement.block ss) rest
  | [], _, rest => by
    simpa [printStmtsJoined] using block_nil rest
  | [s], hwf, rest => by
    have hs : wfStmt s = true := by simpa [wfStmts] using hwf
    obtain ⟨t, ts', hps, hts⟩ := printStmt_starts s
    have hS := stmtRT s hs (Token.rbrace :: rest)
      (by cases s <;> simp [noCont, precedence])
    have hS' : StmtComputes (printStmt s ++ Token.rbrace :: rest) s
        (Token.rbrace :: rest) := by
      cases s <;> simpa [skipSemicolon] using hS
    rw [hps] at hS'
    have := block_cons hts (by simpa using hS') (block_nil rest)
    simp only [printStmtsJoined, hps, List.cons_append]
    simpa using this
  | Statement.letS n v :: s' :: ss', hwf, rest => by
    simp [wfStmts] at hwf
  | Statement.returnS v :: s' :: ss', hwf, rest => by
    simp [wfStmts] at hwf
  | Statement.exprS v :: s' :: ss', hwf, rest => by
    simp only [wfStmts, Bool.and_eq_true] at hwf
    obtain ⟨⟨-, hs⟩, hss⟩ := hwf
    obtain ⟨t, ts', hps, hts⟩ := printStmt_starts (Statement.exprS v)
    have hS := stmtRT (Statement.exprS v) hs
      (Token.semicolon :: (printStmtsJoined (s' :: ss') ++ Token.rbrace :: rest))
      ⟨by simp [noCont, precedence], by simp⟩
    simp only [skipSemicolon] at hS
    have hB := stmtsRT (s' :: ss') hss rest
    rw [hps] at hS
    have := block_cons hts (by simpa using hS) hB
    simp only [printStmtsJoined, hps, List.cons_append]
    simpa using this
termination_by ss hwf rest => 3 * sizeOf ss

end

/-- The top-level statement loop re-parses the printed statements of a
well-formed program, whatever is already accumulated. -/
theorem progRT : ∀ ss : List Statement, wfTopStmts ss = true →
    ∀ acc : List Statement,
    ProgComputes ((ss.map printStmt).join) acc ⟨acc.reverse ++ ss⟩
  | [], _, acc => by
    simpa using prog_nil acc
  | [s], hwf, acc => by
    have hs : wfStmt s = true := by simpa [wfTopStmts] using hwf
    obtain ⟨t, ts', hps, hts⟩ := printStmt_starts s
    have hS := stmtRT s hs [] (by cases s <;> simp [noCont])
    have hS' : StmtComputes (printStmt s) s [] := by
      cases s <;> simpa [skipSemicolon] using hS
    rw [hps] at hS'
    have hP : ProgComputes [] (s :: acc) ⟨acc.reverse ++ [s]⟩ := by
      simpa using prog_nil (s :: acc)
    have hfin := prog_cons hS' hP
    simpa [hps] using hfin
  | Statement.letS n v :: s2 :: ss', hwf, acc => by
    simp only [wfTopStmts, Bool.and_eq_true] at hwf
    obtain ⟨⟨-, hs⟩, hss⟩ := hwf
    obtain ⟨t, ts', hps, hts⟩ := printStmt_starts (Statement.letS n v)
    have hS := stmtRT (Statement.letS n v) hs
      (((s2 :: ss').map printStmt).join) trivial
    rw [hps] at hS
    have hP := progRT (s2 :: ss') hss (Statement.letS n v :: acc)
    have hP' : ProgComputes (((s2 :: ss').map printStmt).join)
        (Statement.letS n v :: acc)
        ⟨acc.reverse ++ (Statement.letS n v :: s2 :: ss')⟩ := by
      simpa using hP
    have hfin := prog_cons hS hP'
    simpa [hps] using hfin
  | Statement.returnS v :: s2 :: ss', hwf, acc => by
    simp only [wfTopStmts, Bool.and_eq_true] at hwf
    obtain ⟨⟨-, hs⟩, hss⟩ := hwf
    obtain ⟨t, ts', hps, hts⟩ := printStmt_starts (Statement.returnS v)
    have hS := stmtRT (Statement.returnS v) hs
      (((s2 :: ss').map printStmt).join) trivial
    rw [hps] at hS
    have hP := progRT (s2 :: ss') hss (Statement.returnS v :: acc)
    have hP' : ProgComputes (((s2 :: ss').map printStmt).join)
        (Statement.returnS v :: acc)
        ⟨acc.reverse ++ (Statement.returnS v :: s2 :: ss')⟩ := by
      simpa using hP
    have hfin := prog_cons hS hP'
    simpa [hps] using hfin
  | Statement.exprS v :: s2 :: ss', hwf, acc => by
    simp [wfTopStmts] at hwf

/-- C8 amended: for every program in the printed fragment that the
printer of `src/ast.rs` renders re-lexably — non-negative integer
literals, genuine operator strings, parameterless function literals,
expression statements in every non-final block position, and `let`/
`return` statements in every non-final top-level position — printing and
re-parsing (with any sufficient parser fuel) yields a structurally equal
AST.  The printed `;;` of a non-final block `let`/`return`, the
`Debug`-quoted parameter lists, and the separator-less top-level join
are exactly what the counterexample shows to break outside this
fragment. -/
theorem C8_print_parse_roundtrip (p : Program) (hwf : wfProgram p = true) :
    ∃ F, ∀ fuel, F ≤ fuel →
      parseProgram fuel (printProgram p) = Except.ok p := by
  have h := progRT p.statements hwf []
  simp only [List.reverse_nil, List.nil_append] at h
  rcases h with ⟨F, hF⟩
  refine ⟨F, fun fuel hf => ?_⟩
  have := hF fuel hf
  simpa [parseProgram, printProgram] using this

/-- Witness for the amended C8: the program `let x = 1;x` prints and
re-parses to itself. -/
theorem C8_witness :
    ∃ F, ∀ fuel, F ≤ fuel →
      parseProgram fuel (printProgram
        ⟨[Statement.letS "x" (Expression.integerLiteral 1),
          Statement.exprS (Expression.identifier "x")]⟩) =
      Except.ok ⟨[Statement.letS "x" (Expression.integerLiteral 1),
        Statement.exprS (Expression.identifier "x")]⟩ :=
  C8_print_parse_roundtrip
    ⟨[Statement.letS "x" (Expression.integerLiteral 1),
      Statement.exprS (Expression.identifier "x")]⟩
    (by simp [wfProgram, wfTopStmts, wfStmt, wfExpr])

end Monkey
